import Mathlib

/-!
Verification of the N-dimensional array construction and composition subsystem
of `hhoppe_tools` (`src/hhoppe_tools/__init__.py`).

We use a shallow embedding. An N-dimensional numpy array is modelled by
`NDArray α`: a shape (list of extents, one per axis) together with a total
function from index tuples to elements. The element type `α` stands for the
array's scalar type or, when an operation treats trailing ("tail") axes as an
opaque block (as `pad_array`, `bounding_crop` and `assemble_arrays` do), for
that whole trailing block. Values of `data` are only meaningful on indices
that are in range for `shape`.

Machine integers are modelled by `Int`/`Nat` (Python integers are unbounded).
Python floor division `//` is `Int.fdiv`, and Python `%` on a positive
modulus is `Int.emod` (the `%` of `Int`). Fallible code returns
`Except String`.
-/

namespace HhoppeTools

/-- A dense rectangular N-dimensional array: a shape and a total index
function (meaningful on in-range indices). -/
structure NDArray (α : Type) where
  shape : List Nat
  data : List Nat → α

/-- `inShape shape ix` holds when `ix` is a valid index tuple for `shape`:
same rank and each coordinate below the corresponding extent. -/
def inShape (shape ix : List Nat) : Bool :=
  ix.length == shape.length && (List.zip ix shape).all fun p => p.1 < p.2

/-- All valid index tuples of a shape, in row-major order. -/
def allIndices : List Nat → List (List Nat)
  | [] => [[]]
  | n :: rest => (List.range n).flatMap fun i => (allIndices rest).map fun ix => i :: ix

theorem mem_allIndices {shape ix : List Nat} :
    ix ∈ allIndices shape ↔ inShape shape ix = true := by
  induction shape generalizing ix with
  | nil =>
    cases ix with
    | nil => simp [allIndices, inShape]
    | cons i t => simp [allIndices, inShape]
  | cons n rest ih =>
    cases ix with
    | nil => simp [allIndices, inShape]
    | cons i t =>
      simp only [allIndices, List.mem_flatMap, List.mem_map, List.mem_range]
      constructor
      · rintro ⟨j, hj, iy, hiy, heq⟩
        cases heq
        have := ih.mp hiy
        simp only [inShape, List.zip_cons_cons, List.all_cons, List.length_cons,
          Bool.and_eq_true, beq_iff_eq, decide_eq_true_eq] at this ⊢
        exact ⟨by omega, hj, this.2⟩
      · intro h
        simp only [inShape, List.zip_cons_cons, List.all_cons, List.length_cons,
          Bool.and_eq_true, beq_iff_eq, decide_eq_true_eq] at h
        exact ⟨i, h.2.1, t, ih.mpr (by
          simp only [inShape, Bool.and_eq_true, beq_iff_eq, decide_eq_true_eq]
          exact ⟨by omega, h.2.2⟩), rfl⟩

/-- If a list has length `n`, reading it back coordinate by coordinate over
`List.range n` reproduces it. -/
theorem map_getD_range {β : Type} {ix : List β} {n : Nat} (d : β) (h : ix.length = n) :
    (List.range n).map (fun k => ix.getD k d) = ix := by
  apply List.ext_getElem
  · simp [h]
  · intro k h1 h2
    simp only [List.getElem_map, List.getElem_range]
    have hk : k < ix.length := by simpa [h] using h2
    simp [List.getD_eq_getElem?_getD, List.getElem?_eq_getElem hk]

/-! ### Shape Resolver (`_fit_shape`, source lines 1825-1835)

The leading underscore of the Python name is dropped. The Python code is:
```
shape = tuple(shape)
if not all(dim > 0 for dim in shape if dim != -1):
  raise ValueError(...)
if sum(dim == -1 for dim in shape) > 1:
  raise ValueError(...)
if -1 in shape:
  slice_size = math.prod(dim for dim in shape if dim != -1)
  shape = tuple((num + slice_size - 1) // slice_size if dim == -1 else dim for dim in shape)
elif math.prod(shape) < num:
  raise ValueError(...)
return shape
```
-/

def fit_shape (shape : List Int) (num : Nat) : Except String (List Int) :=
  if ¬ (shape.all fun dim => decide (0 < dim) || (dim == -1)) then
    Except.error "Shape has non-positive dimensions."
  else if 1 < shape.countP (fun dim => dim == -1) then
    Except.error "More than one dimension is -1."
  else if (-1 : Int) ∈ shape then
    let slice_size : Int := (shape.filter fun dim => !(dim == -1)).prod
    Except.ok (shape.map fun dim =>
      if dim = -1 then Int.fdiv ((num : Int) + slice_size - 1) slice_size else dim)
  else if shape.prod < (num : Int) then
    Except.error "Shape is insufficiently large."
  else
    Except.ok shape

/-- The product of the entries kept by `filter (· != -1)` is positive when
every non-`-1` entry is positive. -/
theorem filter_prod_pos {shape : List Int}
    (h : ∀ d ∈ shape, d ≠ -1 → 0 < d) :
    0 < (shape.filter fun dim => !(dim == -1)).prod := by
  induction shape with
  | nil => simp
  | cons a t ih =>
    have ht : 0 < (t.filter fun dim => !(dim == -1)).prod :=
      ih fun d hd => h d (List.mem_cons_of_mem _ hd)
    rw [List.filter_cons]
    by_cases ha : a = -1
    · have : (!(a == -1)) = false := by simp [ha]
      rw [this]
      simpa using ht
    · have ha' : 0 < a := h a (List.mem_cons_self _ _) ha
      have : (!(a == -1)) = true := by simp [ha]
      rw [this]
      simp only [if_true, List.prod_cons]
      exact mul_pos ha' ht

/-- When a list holds exactly one `-1` and `f` fixes every other entry, the
product of `l.map f` is `r` times the product of the non-`-1` entries. -/
theorem map_prod_single_wildcard {l : List Int} {r : Int}
    (h1 : l.countP (fun dim => dim == -1) = 1) :
    (l.map fun dim => if dim = -1 then r else dim).prod
      = r * (l.filter fun dim => !(dim == -1)).prod := by
  induction l with
  | nil => simp at h1
  | cons a t ih =>
    rw [List.countP_cons] at h1
    by_cases ha : a = -1
    · have hbeq : (a == -1) = true := by simp [ha]
      rw [hbeq] at h1
      have hz : t.countP (fun dim => dim == -1) = 0 := by simpa using h1
      have hnone : ∀ d ∈ t, ¬ (d = -1) := by
        intro d hd hd1
        have hpos : 0 < t.countP (fun dim => dim == -1) :=
          List.countP_pos_iff.mpr ⟨d, hd, by simp [hd1]⟩
        omega
      have ht : (t.map fun dim => if dim = -1 then r else dim) = t := by
        conv_rhs => rw [← List.map_id t]
        apply List.map_congr_left
        intro d hd
        simp [hnone d hd]
      have htf : (t.filter fun dim => !(dim == -1)) = t := by
        apply List.filter_eq_self.mpr
        intro d hd
        simp [hnone d hd]
      subst ha
      rw [List.map_cons, List.filter_cons]
      simp [ht, htf]
    · have hbeq : (a == -1) = false := by simp [ha]
      rw [hbeq] at h1
      have h1 : t.countP (fun dim => dim == -1) = 1 := by simpa using h1
      rw [List.map_cons, List.filter_cons]
      have : (!(a == -1)) = true := by simp [ha]
      rw [this]
      simp only [if_neg ha, if_true, List.prod_cons]
      rw [ih h1]
      ring

/-- The ceiling-style quotient `(n + s - 1).fdiv s` for `s > 0`: it is the
least integer `r` with `n ≤ r * s`. -/
theorem ceil_fdiv_spec (n : Nat) {s : Int} (hs : 0 < s) :
    (n : Int) ≤ Int.fdiv ((n : Int) + s - 1) s * s ∧
    (Int.fdiv ((n : Int) + s - 1) s - 1) * s < (n : Int) := by
  rw [Int.fdiv_eq_ediv _ (le_of_lt hs)]
  have h1 := Int.emod_nonneg ((n : Int) + s - 1) (by omega : s ≠ 0)
  have h2 := Int.emod_lt_of_pos ((n : Int) + s - 1) hs
  have h3 := Int.ediv_add_emod ((n : Int) + s - 1) s
  constructor <;> nlinarith [h3]

/-- Counting matching positions over `List.range l.length` equals counting
matching elements. -/
theorem countP_positions {β : Type} (d : β) (p : β → Bool) (l : List β) :
    (List.range l.length).countP (fun k => p (l.getD k d)) = l.countP p := by
  induction l with
  | nil => simp
  | cons a t ih =>
    rw [List.length_cons, List.range_succ_eq_map, List.countP_cons, List.countP_cons,
      List.countP_map]
    have : ((fun k => p ((a :: t).getD k d)) ∘ Nat.succ) = fun k => p (t.getD k d) := by
      funext k
      simp
    rw [this, ih]
    simp [List.getD_cons_zero]

/-- The wildcard branch of `fit_shape`: with exactly one `-1` entry and all
other entries positive, the resolver replaces the `-1` entry. -/
theorem fit_shape_wildcard_eq {shape : List Int} {num : Nat}
    (hpos : ∀ d ∈ shape, d ≠ -1 → 0 < d)
    (hone : shape.countP (fun dim => dim == -1) = 1) :
    fit_shape shape num =
      Except.ok (shape.map fun dim =>
        if dim = -1 then
          Int.fdiv ((num : Int) + (shape.filter fun d => !(d == -1)).prod - 1)
            ((shape.filter fun d => !(d == -1)).prod)
        else dim) := by
  have hall : (shape.all fun dim => decide (0 < dim) || (dim == -1)) = true := by
    rw [List.all_eq_true]
    intro d hd
    by_cases h : d = -1
    · simp [h]
    · simp [hpos d hd h]
  have hmem : (-1 : Int) ∈ shape := by
    have : 0 < shape.countP (fun dim => dim == -1) := by omega
    obtain ⟨d, hd, hpd⟩ := List.countP_pos_iff.mp this
    have : d = -1 := by simpa using hpd
    exact this ▸ hd
  rw [fit_shape, if_neg (by simp [hall]), if_neg (by omega), if_pos hmem]

/-- C3: for `n ≥ 1` and a shape with exactly one `-1` entry and all other
entries positive, `fit_shape` succeeds and returns the input shape with only
the wildcard replaced by the ceiling of `n` over the product of the other
entries; the resolved product is at least `n` and exactly one entry changed. -/
theorem fit_shape_resolves_wildcard (shape : List Int) (n : Nat)
    (hn : 1 ≤ n)
    (hone : shape.countP (fun dim => dim == -1) = 1)
    (hpos : ∀ d ∈ shape, d ≠ -1 → 0 < d) :
    ∃ resolved : List Int,
      fit_shape shape n = Except.ok resolved ∧
      resolved = (shape.map fun dim =>
        if dim = -1 then
          Int.fdiv ((n : Int) + (shape.filter fun d => !(d == -1)).prod - 1)
            ((shape.filter fun d => !(d == -1)).prod)
        else dim) ∧
      (n : Int) ≤ (Int.fdiv ((n : Int) + (shape.filter fun d => !(d == -1)).prod - 1)
            ((shape.filter fun d => !(d == -1)).prod)) * (shape.filter fun d => !(d == -1)).prod ∧
      ((Int.fdiv ((n : Int) + (shape.filter fun d => !(d == -1)).prod - 1)
            ((shape.filter fun d => !(d == -1)).prod)) - 1) * (shape.filter fun d => !(d == -1)).prod
        < (n : Int) ∧
      (n : Int) ≤ resolved.prod ∧
      resolved.length = shape.length ∧
      (∀ k < shape.length, resolved.getD k 0 ≠ shape.getD k 0 ↔ shape.getD k 0 = -1) ∧
      (List.range shape.length).countP
        (fun k => !(resolved.getD k 0 == shape.getD k 0)) = 1 := by
  set s : Int := (shape.filter fun d => !(d == -1)).prod with hs
  have hspos : 0 < s := filter_prod_pos hpos
  set r : Int := Int.fdiv ((n : Int) + s - 1) s with hr
  have hceil := ceil_fdiv_spec n hspos
  have hrpos : 0 < r := by
    by_contra h
    push_neg at h
    have : r * s ≤ 0 := mul_nonpos_iff.mpr (Or.inr ⟨h, le_of_lt hspos⟩)
    have : (n : Int) ≤ 0 := le_trans hceil.1 this
    omega
  refine ⟨_, fit_shape_wildcard_eq hpos hone, rfl, hceil.1, hceil.2, ?_, ?_, ?_, ?_⟩
  · rw [map_prod_single_wildcard hone]
    exact hceil.1
  · exact List.length_map _ _
  · intro k hk
    have hget : (shape.map fun dim => if dim = -1 then r else dim).getD k 0
        = (if shape.getD k 0 = -1 then r else shape.getD k 0) := by
      have hk2 : k < (shape.map fun dim => if dim = -1 then r else dim).length := by
        simpa using hk
      rw [List.getD_eq_getElem?_getD, List.getElem?_eq_getElem hk2, List.getElem_map,
        List.getD_eq_getElem?_getD, List.getElem?_eq_getElem hk]
      simp
    rw [hget]
    by_cases h : shape.getD k 0 = -1
    · rw [if_pos h]
      refine ⟨fun _ => h, fun _ => ?_⟩
      rw [h]
      omega
    · rw [if_neg h]
      exact ⟨fun hne => absurd rfl hne, fun heq => absurd heq h⟩
  · have hcong : (List.range shape.length).countP
        (fun k => !((shape.map fun dim => if dim = -1 then r else dim).getD k 0 == shape.getD k 0))
        = (List.range shape.length).countP (fun k => shape.getD k 0 == -1) := by
      apply List.countP_congr
      intro k hk
      rw [List.mem_range] at hk
      have hget : (shape.map fun dim => if dim = -1 then r else dim).getD k 0
          = (if shape.getD k 0 = -1 then r else shape.getD k 0) := by
        have hk2 : k < (shape.map fun dim => if dim = -1 then r else dim).length := by
          simpa using hk
        rw [List.getD_eq_getElem?_getD, List.getElem?_eq_getElem hk2, List.getElem_map,
          List.getD_eq_getElem?_getD, List.getElem?_eq_getElem hk]
        simp
      rw [hget]
      by_cases h : shape.getD k 0 = -1
      · simp only [if_pos h, h]
        have : ¬ (r = -1) := by omega
        simp [this]
      · rw [if_neg h]
        have h2 : (shape.getD k 0 == -1) = false := by simpa using h
        rw [h2]
        simp
    rw [hcong]
    have := countP_positions (0 : Int) (fun dim => dim == -1) shape
    omega

/-- C3 witness: `fit_shape (3, -1) 10` resolves the wildcard to `4`. -/
theorem fit_shape_resolves_wildcard_witness :
    (1 ≤ 10 ∧ ([3, -1] : List Int).countP (fun dim => dim == -1) = 1 ∧
      (∀ d ∈ ([3, -1] : List Int), d ≠ -1 → 0 < d)) ∧
    ∃ resolved : List Int,
      fit_shape [3, -1] 10 = Except.ok resolved ∧
      resolved = (([3, -1] : List Int).map fun dim =>
        if dim = -1 then
          Int.fdiv ((10 : Int) + (([3, -1] : List Int).filter fun d => !(d == -1)).prod - 1)
            ((([3, -1] : List Int).filter fun d => !(d == -1)).prod)
        else dim) ∧
      (10 : Int) ≤ (Int.fdiv ((10 : Int) + (([3, -1] : List Int).filter fun d => !(d == -1)).prod - 1)
            ((([3, -1] : List Int).filter fun d => !(d == -1)).prod))
          * (([3, -1] : List Int).filter fun d => !(d == -1)).prod ∧
      ((Int.fdiv ((10 : Int) + (([3, -1] : List Int).filter fun d => !(d == -1)).prod - 1)
            ((([3, -1] : List Int).filter fun d => !(d == -1)).prod)) - 1)
          * (([3, -1] : List Int).filter fun d => !(d == -1)).prod < (10 : Int) ∧
      (10 : Int) ≤ resolved.prod ∧
      resolved.length = ([3, -1] : List Int).length ∧
      (∀ k < ([3, -1] : List Int).length,
        resolved.getD k 0 ≠ ([3, -1] : List Int).getD k 0 ↔ ([3, -1] : List Int).getD k 0 = -1) ∧
      (List.range ([3, -1] : List Int).length).countP
        (fun k => !(resolved.getD k 0 == ([3, -1] : List Int).getD k 0)) = 1 :=
  ⟨⟨by decide, by decide, by decide⟩,
    fit_shape_resolves_wildcard [3, -1] 10 (by decide) (by decide) (by decide)⟩

/-- C6: `fit_shape` fails exactly when the shape has no `-1` and too small a
product, or more than one `-1`, or a non-`-1` entry that is not positive;
otherwise it succeeds, and returns the shape unchanged when it has no `-1`. -/
theorem fit_shape_error_characterization (shape : List Int) (n : Nat) :
    ((fit_shape shape n).isOk = false ↔
      (∃ d ∈ shape, d ≠ -1 ∧ d ≤ 0) ∨
      1 < shape.countP (fun dim => dim == -1) ∨
      ((-1 : Int) ∉ shape ∧ shape.prod < (n : Int))) ∧
    ((-1 : Int) ∉ shape → (∀ d ∈ shape, 0 < d) → ¬ shape.prod < (n : Int) →
      fit_shape shape n = Except.ok shape) := by
  have hall : (shape.all fun dim => decide (0 < dim) || (dim == -1)) = true
      ↔ ¬ (∃ d ∈ shape, d ≠ -1 ∧ d ≤ 0) := by
    rw [List.all_eq_true]
    constructor
    · rintro h ⟨d, hd, hne, hle⟩
      have := h d hd
      simp only [Bool.or_eq_true, decide_eq_true_eq, beq_iff_eq] at this
      rcases this with h1 | h1
      · omega
      · exact hne h1
    · intro h d hd
      simp only [Bool.or_eq_true, decide_eq_true_eq, beq_iff_eq]
      by_cases hne : d = -1
      · exact Or.inr hne
      · left
        by_contra hle
        exact h ⟨d, hd, hne, by omega⟩
  constructor
  · rw [fit_shape]
    by_cases h1 : (shape.all fun dim => decide (0 < dim) || (dim == -1)) = true
    · rw [if_neg (by simp [h1])]
      by_cases h2 : 1 < shape.countP (fun dim => dim == -1)
      · rw [if_pos h2]
        exact iff_of_true rfl (Or.inr (Or.inl h2))
      · rw [if_neg h2]
        by_cases h3 : (-1 : Int) ∈ shape
        · rw [if_pos h3]
          refine iff_of_false (by simp [Except.isOk, Except.toBool]) ?_
          rintro (h | h | h)
          · exact absurd h (hall.mp h1)
          · exact absurd h h2
          · exact absurd h3 h.1
        · rw [if_neg h3]
          by_cases h4 : shape.prod < (n : Int)
          · rw [if_pos h4]
            exact iff_of_true rfl (Or.inr (Or.inr ⟨h3, h4⟩))
          · rw [if_neg h4]
            refine iff_of_false (by simp [Except.isOk, Except.toBool]) ?_
            rintro (h | h | h)
            · exact absurd h (hall.mp h1)
            · exact absurd h h2
            · exact absurd h.2 h4
    · rw [if_pos (by simpa using h1)]
      refine iff_of_true rfl ?_
      left
      by_contra h
      exact h1 (hall.mpr h)
  · intro h3 hdpos h4
    have h1 : (shape.all fun dim => decide (0 < dim) || (dim == -1)) = true := by
      rw [List.all_eq_true]
      intro d hd
      simp only [Bool.or_eq_true, decide_eq_true_eq, beq_iff_eq]
      exact Or.inl (hdpos d hd)
    have h2 : ¬ 1 < shape.countP (fun dim => dim == -1) := by
      have : shape.countP (fun dim => dim == -1) = 0 := by
        rw [List.countP_eq_zero]
        intro d hd
        simp only [beq_iff_eq]
        intro hcon
        exact h3 (hcon ▸ hd)
      omega
    rw [fit_shape, if_neg (by simp [h1]), if_neg h2, if_neg h3, if_neg h4]

/-- C6 witness: `(5, 2)` with `n = 10` triggers no failure condition and is
returned unchanged. -/
theorem fit_shape_error_characterization_witness :
    ((-1 : Int) ∉ ([5, 2] : List Int) ∧ (∀ d ∈ ([5, 2] : List Int), 0 < d) ∧
      ¬ ([5, 2] : List Int).prod < ((10 : Nat) : Int)) ∧
    fit_shape [5, 2] 10 = Except.ok [5, 2] :=
  ⟨⟨by decide, by decide, by decide⟩,
    (fit_shape_error_characterization [5, 2] 10).2 (by decide) (by decide) (by decide)⟩

/-! ### Sparse Grid Builder (`grid_from_indices`, source lines 1744-1768)

The Python core is:
```
indices = np.array(list(iterable_or_map))
if indices.ndim == 1: indices = indices[:, None]
assert indices.ndim == 2 and np.issubdtype(indices.dtype, np.integer)
i_min = np.min(indices, axis=0) if indices_min is None else np.full(indices.shape[1], indices_min)
i_max = np.max(indices, axis=0) if indices_max is None else np.full(indices.shape[1], indices_max)
a_pad = np.asarray(pad)
shape = i_max - i_min + 2 * a_pad + 1
offset = -i_min + a_pad
...
grid = np.full(shape2, background, dtype)
indices += offset
grid[tuple(indices.T)] = list(mapping.values()) if is_map else foreground
return grid
```
The input is modelled as a list of (index, value) pairs: for a mapping these
are its key/value pairs (keys distinct), for an iterable the pairs
`(index, foreground)`. The `assert indices.ndim == 2 and
np.issubdtype(indices.dtype, np.integer)` fails both for ragged index
tuples (`np.array` yields an object-dtype array) and for an empty input
(`np.array([])` is float64, not integer), so both are error branches of the
model, placed before the bound resolution just as the assert precedes the
`i_min`/`i_max` lines. Numpy basic indexing accepts an index `i` with
`-extent <= i < extent`, wrapping negative `i` to `extent + i`, and raises
`IndexError` otherwise; `npResolveIndex` models this. Assignment with
repeated indices is last-write-wins, modelled by a left fold of writes.
Structured (broadcast) values are covered by the block element type `α`.
-/

def npResolveIndex (extent : Nat) (i : Int) : Option Nat :=
  if 0 ≤ i ∧ i < (extent : Int) then some i.toNat
  else if -(extent : Int) ≤ i ∧ i < 0 then some (i + extent).toNat
  else none

/-- `Option`-valued map over a list, failing if any element fails. -/
def mapMOpt {β γ : Type} (f : β → Option γ) : List β → Option (List γ)
  | [] => some []
  | b :: rest =>
    match f b, mapMOpt f rest with
    | some c, some cs => some (c :: cs)
    | _, _ => none

/-- Sequential (last-write-wins) sparse assignment into a constant grid. -/
def writeList {α : Type} (background : α) (ws : List (List Nat × α)) : List Nat → α :=
  ws.foldl (fun g pv => fun ix => if ix = pv.1 then pv.2 else g ix) fun _ => background

/-- Per-axis minimum (`np.min(indices, axis=0)`) over a nonempty index list;
`0` for an empty list (numpy raises there, and the model guards that case). -/
def axisMin (indices : List (List Int)) (k : Nat) : Int :=
  match indices with
  | [] => 0
  | ix :: rest => rest.foldl (fun m iy => min m (iy.getD k 0)) (ix.getD k 0)

/-- Per-axis maximum (`np.max(indices, axis=0)`). -/
def axisMax (indices : List (List Int)) (k : Nat) : Int :=
  match indices with
  | [] => 0
  | ix :: rest => rest.foldl (fun m iy => max m (iy.getD k 0)) (ix.getD k 0)

/-- An explicit bound (scalar replicated, or one value per axis) must supply
one value per axis after `np.full(indices.shape[1], ...)`. -/
def boundListOk (D : Nat) (b : Option (List Int)) : Bool :=
  match b with
  | none => true
  | some l => l.length == D

def resolvedBound (b : Option (List Int)) (dataBound : Nat → Int) (k : Nat) : Int :=
  match b with
  | some l => l.getD k 0
  | none => dataBound k

def grid_from_indices {α : Type} (D : Nat) (entries : List (List Int × α))
    (background : α) (indicesMin indicesMax : Option (List Int)) (pad : Int) :
    Except String (NDArray α) :=
  let indices := entries.map Prod.fst
  if ¬ (indices.all fun ix => ix.length == D) then
    Except.error "indices do not form an integer array of rank 2"
  else if indices.isEmpty then
    Except.error "empty indices are not an integer array"
  else if ¬ (boundListOk D indicesMin ∧ boundListOk D indicesMax) then
    Except.error "explicit bounds do not broadcast to the index rank"
  else
    let i_min := resolvedBound indicesMin (axisMin indices)
    let i_max := resolvedBound indicesMax (axisMax indices)
    let shapeI := (List.range D).map fun k => i_max k - i_min k + 2 * pad + 1
    if ¬ (shapeI.all fun s => 0 ≤ s) then
      Except.error "negative dimensions are not allowed"
    else
      let extents := shapeI.map Int.toNat
      let offset := fun k => -(i_min k) + pad
      match mapMOpt (fun (e : List Int × α) =>
          (mapMOpt (fun k => npResolveIndex (extents.getD k 0) (e.1.getD k 0 + offset k))
            (List.range D)).map fun p => (p, e.2)) entries with
      | none => Except.error "index out of bounds"
      | some ws => Except.ok ⟨extents, writeList background ws⟩

theorem getD_map_range {β : Type} (f : Nat → β) {n k : Nat} (d : β) (h : k < n) :
    ((List.range n).map f).getD k d = f k := by
  rw [List.getD_eq_getElem?_getD, List.getElem?_eq_getElem (by simpa using h)]
  simp

theorem foldl_write_of_not_mem {α : Type} (g : List Nat → α) (ws : List (List Nat × α))
    (ix : List Nat) (h : ∀ pv ∈ ws, pv.1 ≠ ix) :
    (ws.foldl (fun g pv => fun jx => if jx = pv.1 then pv.2 else g jx) g) ix = g ix := by
  induction ws generalizing g with
  | nil => rfl
  | cons a t ih =>
    rw [List.foldl_cons, ih _ (fun pv hpv => h pv (List.mem_cons_of_mem _ hpv))]
    exact if_neg fun hc => h a (List.mem_cons_self _ _) hc.symm

theorem foldl_write_of_mem {α : Type} (g : List Nat → α) (ws : List (List Nat × α))
    (ix : List Nat) (v : α)
    (hmem : ∃ pv ∈ ws, pv.1 = ix)
    (hval : ∀ pv ∈ ws, pv.1 = ix → pv.2 = v) :
    (ws.foldl (fun g pv => fun jx => if jx = pv.1 then pv.2 else g jx) g) ix = v := by
  induction ws generalizing g with
  | nil =>
    obtain ⟨pv, hpv, _⟩ := hmem
    exact absurd hpv (List.not_mem_nil _)
  | cons a t ih =>
    rw [List.foldl_cons]
    by_cases hat : ∃ pv ∈ t, pv.1 = ix
    · exact ih _ hat fun pv hpv => hval pv (List.mem_cons_of_mem _ hpv)
    · push_neg at hat
      rw [foldl_write_of_not_mem _ _ _ hat]
      obtain ⟨pv, hpv, hpx⟩ := hmem
      rcases List.mem_cons.mp hpv with heq | hmt
      · subst heq
        rw [if_pos hpx.symm]
        exact hval pv (List.mem_cons_self _ _) hpx
      · exact absurd hpx (hat pv hmt)

theorem writeList_of_mem {α : Type} (background : α) (ws : List (List Nat × α))
    (ix : List Nat) (v : α)
    (hmem : ∃ pv ∈ ws, pv.1 = ix)
    (hval : ∀ pv ∈ ws, pv.1 = ix → pv.2 = v) :
    writeList background ws ix = v :=
  foldl_write_of_mem _ _ _ _ hmem hval

theorem writeList_of_not_mem {α : Type} (background : α) (ws : List (List Nat × α))
    (ix : List Nat) (h : ∀ pv ∈ ws, pv.1 ≠ ix) :
    writeList background ws ix = background :=
  foldl_write_of_not_mem _ _ _ h

theorem mapMOpt_eq_some_of_forall {β γ : Type} (f : β → Option γ) (l : List β) (g : β → γ)
    (h : ∀ b ∈ l, f b = some (g b)) : mapMOpt f l = some (l.map g) := by
  induction l with
  | nil => rfl
  | cons a t ih =>
    rw [mapMOpt, h a (List.mem_cons_self _ _),
      ih fun b hb => h b (List.mem_cons_of_mem _ hb)]
    rfl

theorem mapMOpt_eq_none_iff {β γ : Type} (f : β → Option γ) (l : List β) :
    mapMOpt f l = none ↔ ∃ b ∈ l, f b = none := by
  induction l with
  | nil => simp [mapMOpt]
  | cons a t ih =>
    rw [mapMOpt]
    cases hfa : f a with
    | none => exact iff_of_true rfl ⟨a, List.mem_cons_self _ _, hfa⟩
    | some c =>
      cases hmt : mapMOpt f t with
      | none =>
        refine iff_of_true rfl ?_
        obtain ⟨b, hb, hfb⟩ := ih.mp hmt
        exact ⟨b, List.mem_cons_of_mem _ hb, hfb⟩
      | some cs =>
        refine iff_of_false (by simp) ?_
        rintro ⟨b, hb, hfb⟩
        rcases List.mem_cons.mp hb with heq | hmt2
        · subst heq
          rw [hfa] at hfb
          exact Option.noConfusion hfb
        · have := ih.mpr ⟨b, hmt2, hfb⟩
          rw [this] at hmt
          exact Option.noConfusion hmt

theorem foldl_min_le_init {β : Type} (f : β → Int) (l : List β) (a : Int) :
    l.foldl (fun m x => min m (f x)) a ≤ a := by
  induction l generalizing a with
  | nil => simp
  | cons x t ih => exact le_trans (ih _) (min_le_left _ _)

theorem foldl_min_le_mem {β : Type} (f : β → Int) (l : List β) (a : Int) {x : β}
    (h : x ∈ l) : l.foldl (fun m y => min m (f y)) a ≤ f x := by
  induction l generalizing a with
  | nil => exact absurd h (List.not_mem_nil _)
  | cons y t ih =>
    rw [List.foldl_cons]
    rcases List.mem_cons.mp h with heq | hmt
    · subst heq
      exact le_trans (foldl_min_le_init _ _ _) (min_le_right _ _)
    · exact ih _ hmt

theorem init_le_foldl_max {β : Type} (f : β → Int) (l : List β) (a : Int) :
    a ≤ l.foldl (fun m x => max m (f x)) a := by
  induction l generalizing a with
  | nil => simp
  | cons x t ih => exact le_trans (le_max_left _ _) (ih _)

theorem mem_le_foldl_max {β : Type} (f : β → Int) (l : List β) (a : Int) {x : β}
    (h : x ∈ l) : f x ≤ l.foldl (fun m y => max m (f y)) a := by
  induction l generalizing a with
  | nil => exact absurd h (List.not_mem_nil _)
  | cons y t ih =>
    rw [List.foldl_cons]
    rcases List.mem_cons.mp h with heq | hmt
    · subst heq
      exact le_trans (le_max_right _ _) (init_le_foldl_max _ _ _)
    · exact ih _ hmt

/-- Every index of a nonempty index list is at least the per-axis minimum. -/
theorem axisMin_le {indices : List (List Int)} {ix : List Int}
    (h : ix ∈ indices) (k : Nat) : axisMin indices k ≤ ix.getD k 0 := by
  match indices, h with
  | iy :: rest, h =>
    rw [axisMin]
    rcases List.mem_cons.mp h with heq | hmt
    · subst heq
      exact foldl_min_le_init _ _ _
    · exact foldl_min_le_mem _ _ _ hmt

/-- Every index of a nonempty index list is at most the per-axis maximum. -/
theorem le_axisMax {indices : List (List Int)} {ix : List Int}
    (h : ix ∈ indices) (k : Nat) : ix.getD k 0 ≤ axisMax indices k := by
  match indices, h with
  | iy :: rest, h =>
    rw [axisMax]
    rcases List.mem_cons.mp h with heq | hmt
    · subst heq
      exact init_le_foldl_max _ _ _
    · exact mem_le_foldl_max _ _ _ hmt

theorem npResolveIndex_inRange {extent : Nat} {i : Int} (h0 : 0 ≤ i) (h1 : i < (extent : Int)) :
    npResolveIndex extent i = some i.toNat := by
  rw [npResolveIndex, if_pos ⟨h0, h1⟩]

theorem npResolveIndex_eq_none_iff {extent : Nat} {i : Int} :
    npResolveIndex extent i = none ↔ (i < -(extent : Int) ∨ (extent : Int) ≤ i) := by
  rw [npResolveIndex]
  by_cases h1 : 0 ≤ i ∧ i < (extent : Int)
  · rw [if_pos h1]
    exact iff_of_false (by simp) (by omega)
  · rw [if_neg h1]
    by_cases h2 : -(extent : Int) ≤ i ∧ i < 0
    · rw [if_pos h2]
      exact iff_of_false (by simp) (by omega)
    · rw [if_neg h2]
      exact iff_of_true rfl (by omega)

/-- C2: `grid_from_indices` with default bounds on a nonempty, functional
list of (index, value) pairs: the output has extent
`max - min + 2*pad + 1` per axis, each input coordinate translated by
`pad - min` holds its assigned value, and every other position holds the
background value. -/
theorem grid_from_indices_default_bounds {α : Type} (D : Nat)
    (entries : List (List Int × α)) (background : α) (pad : Int)
    (hne : entries ≠ [])
    (hlen : ∀ e ∈ entries, e.1.length = D)
    (hpad : 0 ≤ pad)
    (hfun : ∀ e ∈ entries, ∀ e2 ∈ entries, e.1 = e2.1 → e.2 = e2.2) :
    ∃ g : NDArray α,
      grid_from_indices D entries background none none pad = Except.ok g ∧
      g.shape.length = D ∧
      (∀ k, k < D → (g.shape.getD k 0 : Int) =
        axisMax (entries.map Prod.fst) k - axisMin (entries.map Prod.fst) k + 2 * pad + 1) ∧
      (∀ e ∈ entries,
        g.data ((List.range D).map fun k =>
          (e.1.getD k 0 - axisMin (entries.map Prod.fst) k + pad).toNat) = e.2) ∧
      (∀ pos : List Nat, inShape g.shape pos = true →
        (∀ e ∈ entries, pos ≠ (List.range D).map fun k =>
          (e.1.getD k 0 - axisMin (entries.map Prod.fst) k + pad).toNat) →
        g.data pos = background) := by
  have hindne : entries.map Prod.fst ≠ [] := fun h => hne (by simpa using h)
  have hminmax : ∀ k, axisMin (entries.map Prod.fst) k ≤ axisMax (entries.map Prod.fst) k := by
    intro k
    obtain ⟨ix, hix⟩ := List.exists_mem_of_ne_nil _ hindne
    exact le_trans (axisMin_le hix k) (le_axisMax hix k)
  have hlo : ∀ e ∈ entries, ∀ k,
      axisMin (entries.map Prod.fst) k ≤ e.1.getD k 0 := fun e he k =>
    axisMin_le (List.mem_map.mpr ⟨e, he, rfl⟩) k
  have hhi : ∀ e ∈ entries, ∀ k,
      e.1.getD k 0 ≤ axisMax (entries.map Prod.fst) k := fun e he k =>
    le_axisMax (List.mem_map.mpr ⟨e, he, rfl⟩) k
  have hg1 : ((entries.map Prod.fst).all fun ix => ix.length == D) = true := by
    rw [List.all_eq_true]
    intro ix hix
    obtain ⟨e, he, rfl⟩ := List.mem_map.mp hix
    simpa using hlen e he
  have hg3 : ¬ ((entries.map Prod.fst).isEmpty = true) := by
    intro hc
    exact hindne (List.isEmpty_iff.mp hc)
  have hg4 : (((List.range D).map fun k =>
      axisMax (entries.map Prod.fst) k - axisMin (entries.map Prod.fst) k + 2 * pad + 1).all
        fun s => decide (0 ≤ s)) = true := by
    rw [List.all_eq_true]
    intro s hs
    obtain ⟨k, _, rfl⟩ := List.mem_map.mp hs
    have := hminmax k
    simp only [decide_eq_true_eq]
    omega
  have hext : ∀ k, k < D →
      (((((List.range D).map fun k =>
        axisMax (entries.map Prod.fst) k - axisMin (entries.map Prod.fst) k + 2 * pad + 1).map
          Int.toNat).getD k 0 : Nat) : Int) =
      axisMax (entries.map Prod.fst) k - axisMin (entries.map Prod.fst) k + 2 * pad + 1 := by
    intro k hk
    rw [List.map_map, getD_map_range _ _ hk]
    have := hminmax k
    simp only [Function.comp_apply]
    rw [Int.toNat_of_nonneg (by omega)]
  have hinner : ∀ e ∈ entries,
      (mapMOpt (fun k => npResolveIndex
          (((((List.range D).map fun k =>
            axisMax (entries.map Prod.fst) k - axisMin (entries.map Prod.fst) k + 2 * pad + 1).map
              Int.toNat)).getD k 0)
          (e.1.getD k 0 + (-(axisMin (entries.map Prod.fst) k) + pad)))
        (List.range D)).map (fun p => (p, e.2))
      = some ((List.range D).map (fun k =>
          (e.1.getD k 0 - axisMin (entries.map Prod.fst) k + pad).toNat), e.2) := by
    intro e he
    rw [mapMOpt_eq_some_of_forall _ _
      (fun k => (e.1.getD k 0 - axisMin (entries.map Prod.fst) k + pad).toNat) ?_]
    · rfl
    · intro k hk
      rw [List.mem_range] at hk
      have harg : e.1.getD k 0 + (-(axisMin (entries.map Prod.fst) k) + pad)
          = e.1.getD k 0 - axisMin (entries.map Prod.fst) k + pad := by ring
      rw [harg]
      have h0 : (0 : Int) ≤ e.1.getD k 0 - axisMin (entries.map Prod.fst) k + pad := by
        have := hlo e he k
        omega
      have h1 : e.1.getD k 0 - axisMin (entries.map Prod.fst) k + pad
          < axisMax (entries.map Prod.fst) k - axisMin (entries.map Prod.fst) k + 2 * pad + 1 := by
        have := hhi e he k
        omega
      rw [npResolveIndex_inRange h0 (by rw [hext k hk]; exact h1)]
  have houter : mapMOpt (fun (e : List Int × α) =>
      (mapMOpt (fun k => npResolveIndex
          (((((List.range D).map fun k =>
            axisMax (entries.map Prod.fst) k - axisMin (entries.map Prod.fst) k + 2 * pad + 1).map
              Int.toNat)).getD k 0)
          (e.1.getD k 0 + (-(axisMin (entries.map Prod.fst) k) + pad)))
        (List.range D)).map (fun p => (p, e.2))) entries
      = some (entries.map fun e =>
          ((List.range D).map (fun k =>
            (e.1.getD k 0 - axisMin (entries.map Prod.fst) k + pad).toNat), e.2)) :=
    mapMOpt_eq_some_of_forall _ _ _ hinner
  have htinj : ∀ e ∈ entries, ∀ e2 ∈ entries,
      ((List.range D).map fun k =>
        (e2.1.getD k 0 - axisMin (entries.map Prod.fst) k + pad).toNat)
      = ((List.range D).map fun k =>
        (e.1.getD k 0 - axisMin (entries.map Prod.fst) k + pad).toNat) →
      e2.1 = e.1 := by
    intro e he e2 he2 heq
    apply List.ext_getElem
    · rw [hlen e2 he2, hlen e he]
    · intro k hk1 hk2
      have hkD : k < D := by
        rw [hlen e2 he2] at hk1
        exact hk1
      have := congrArg (fun l => l.getD k 0) heq
      simp only [getD_map_range _ _ hkD] at this
      have h02 : (0 : Int) ≤ e2.1.getD k 0 - axisMin (entries.map Prod.fst) k + pad := by
        have := hlo e2 he2 k
        omega
      have h01 : (0 : Int) ≤ e.1.getD k 0 - axisMin (entries.map Prod.fst) k + pad := by
        have := hlo e he k
        omega
      have hInt : e2.1.getD k 0 - axisMin (entries.map Prod.fst) k + pad
          = e.1.getD k 0 - axisMin (entries.map Prod.fst) k + pad := by
        have hcast := congrArg (fun (n : Nat) => (n : Int)) this
        simp only at hcast
        rw [Int.toNat_of_nonneg h02, Int.toNat_of_nonneg h01] at hcast
        exact hcast
      have : e2.1.getD k 0 = e.1.getD k 0 := by omega
      rwa [List.getD_eq_getElem?_getD, List.getElem?_eq_getElem hk1,
        List.getD_eq_getElem?_getD, List.getElem?_eq_getElem hk2] at this
  refine ⟨⟨(((List.range D).map fun k =>
      axisMax (entries.map Prod.fst) k - axisMin (entries.map Prod.fst) k + 2 * pad + 1).map
        Int.toNat),
    writeList background (entries.map fun e =>
      ((List.range D).map (fun k =>
        (e.1.getD k 0 - axisMin (entries.map Prod.fst) k + pad).toNat), e.2))⟩,
    ?_, ?_, ?_, ?_, ?_⟩
  · simp only [grid_from_indices, resolvedBound]
    rw [if_neg (not_not_intro hg1), if_neg hg3, if_neg (not_not_intro ⟨rfl, rfl⟩),
      if_neg (not_not_intro hg4), houter]
  · simp
  · exact hext
  · intro e he
    apply writeList_of_mem
    · exact ⟨_, List.mem_map.mpr ⟨e, he, rfl⟩, rfl⟩
    · intro pv hpv hpx
      obtain ⟨e2, he2, rfl⟩ := List.mem_map.mp hpv
      exact hfun e2 he2 e he (htinj e he e2 he2 hpx)
  · intro pos hposShape hposNe
    apply writeList_of_not_mem
    intro pv hpv
    obtain ⟨e2, he2, rfl⟩ := List.mem_map.mp hpv
    exact fun hc => hposNe e2 he2 hc.symm

/-- Concrete sparse input for the C2 witness. -/
def c2entries : List (List Int × Int) := [([-1, -2], 5), ([1, 0], 7)]

/-- C2 witness: the theorem applied to a concrete 2-D map. -/
theorem grid_from_indices_default_bounds_witness :
    (c2entries ≠ [] ∧ (∀ e ∈ c2entries, e.1.length = 2) ∧ (0 : Int) ≤ 1 ∧
      (∀ e ∈ c2entries, ∀ e2 ∈ c2entries, e.1 = e2.1 → e.2 = e2.2)) ∧
    (∃ g : NDArray Int,
      grid_from_indices 2 c2entries 0 none none 1 = Except.ok g ∧
      g.shape.length = 2 ∧
      (∀ k, k < 2 → (g.shape.getD k 0 : Int) =
        axisMax (c2entries.map Prod.fst) k - axisMin (c2entries.map Prod.fst) k + 2 * 1 + 1) ∧
      (∀ e ∈ c2entries,
        g.data ((List.range 2).map fun k =>
          (e.1.getD k 0 - axisMin (c2entries.map Prod.fst) k + 1).toNat) = e.2) ∧
      (∀ pos : List Nat, inShape g.shape pos = true →
        (∀ e ∈ c2entries, pos ≠ (List.range 2).map fun k =>
          (e.1.getD k 0 - axisMin (c2entries.map Prod.fst) k + 1).toNat) →
        g.data pos = 0)) :=
  ⟨⟨by decide, by decide, by decide, by decide⟩,
    grid_from_indices_default_bounds 2 c2entries 0 1 (by decide) (by decide) (by decide)
      (by decide)⟩

/-- Boolean check that a `grid_from_indices` or `assemble_arrays` result is a
success with a given shape and with given data at every index of that shape. -/
def gridEqList {α : Type} [BEq α] (r : Except String (NDArray α)) (shape : List Nat)
    (f : List Nat → α) : Bool :=
  match r with
  | Except.error _ => false
  | Except.ok g => g.shape == shape && (allIndices shape).all fun ix => g.data ix == f ix

/-- Concrete sparse input for the C4 counterexample: a single coordinate `0`
with explicit bounds `[1, 5]`. -/
def c4entries : List (List Int × Int) := [([0], 1)]

/-- C4 counterexample: coordinate `0` lies outside the explicitly supplied
bounds `[min - pad, max + pad] = [1, 5]`, yet the call succeeds: numpy
negative indexing silently wraps the translated index `-1` to position `4`. -/
theorem grid_from_indices_oob_cex :
    Except.isOk (grid_from_indices 1 c4entries 0 (some [1]) (some [5]) 0) = true ∧
    (0 : Int) < 1 - 0 ∧
    gridEqList (grid_from_indices 1 c4entries 0 (some [1]) (some [5]) 0) [5]
      (fun ix => if ix = [4] then 1 else 0) = true := by
  refine ⟨rfl, by decide, by decide⟩

/-- C4 amended: for a nonempty coordinate list (an empty one always fails
the integer-dtype assert, since `np.array([])` is float64) with both bounds
explicitly supplied, the call fails with the index error exactly when some
coordinate exceeds `max + pad` or falls below `(min - pad) - extent` where
`extent = max - min + 2*pad + 1`; coordinates in
`[(min - pad) - extent, min - pad)` are silently wrapped by numpy negative
indexing instead of raising. -/
theorem grid_from_indices_explicit_bounds_error_iff {α : Type} (D : Nat)
    (entries : List (List Int × α)) (background : α) (lmin lmax : List Int) (pad : Int)
    (hne : entries ≠ [])
    (hlen : ∀ e ∈ entries, e.1.length = D)
    (hminl : lmin.length = D) (hmaxl : lmax.length = D)
    (hshape : ∀ k, k < D → 0 ≤ lmax.getD k 0 - lmin.getD k 0 + 2 * pad + 1) :
    Except.isOk (grid_from_indices D entries background (some lmin) (some lmax) pad) = false ↔
      ∃ e ∈ entries, ∃ k, k < D ∧
        (lmax.getD k 0 + pad < e.1.getD k 0 ∨
         e.1.getD k 0 <
           (lmin.getD k 0 - pad) - (lmax.getD k 0 - lmin.getD k 0 + 2 * pad + 1)) := by
  have hg1 : ((entries.map Prod.fst).all fun ix => ix.length == D) = true := by
    rw [List.all_eq_true]
    intro ix hix
    obtain ⟨e, he, rfl⟩ := List.mem_map.mp hix
    simpa using hlen e he
  have hg2 : boundListOk D (some lmin) = true ∧ boundListOk D (some lmax) = true := by
    constructor <;> simp [boundListOk, hminl, hmaxl]
  have hg3 : ¬ ((entries.map Prod.fst).isEmpty = true) := by
    intro hc
    exact hne (by simpa using List.isEmpty_iff.mp hc)
  have hg4 : (((List.range D).map fun k =>
      lmax.getD k 0 - lmin.getD k 0 + 2 * pad + 1).all fun s => decide (0 ≤ s)) = true := by
    rw [List.all_eq_true]
    intro s hs
    obtain ⟨k, hk, rfl⟩ := List.mem_map.mp hs
    rw [List.mem_range] at hk
    simpa using hshape k hk
  have hext : ∀ k, k < D →
      (((((List.range D).map fun k =>
        lmax.getD k 0 - lmin.getD k 0 + 2 * pad + 1).map Int.toNat).getD k 0 : Nat) : Int) =
      lmax.getD k 0 - lmin.getD k 0 + 2 * pad + 1 := by
    intro k hk
    rw [List.map_map, getD_map_range _ _ hk]
    simp only [Function.comp_apply]
    rw [Int.toNat_of_nonneg (hshape k hk)]
  simp only [grid_from_indices, resolvedBound]
  rw [if_neg (not_not_intro hg1), if_neg hg3, if_neg (not_not_intro hg2),
    if_neg (not_not_intro hg4)]
  have hpoint : ∀ e ∈ entries,
      ((mapMOpt (fun k => npResolveIndex
          ((((List.range D).map fun k =>
            lmax.getD k 0 - lmin.getD k 0 + 2 * pad + 1).map Int.toNat).getD k 0)
          (e.1.getD k 0 + (-(lmin.getD k 0) + pad)))
        (List.range D)).map (fun p => (p, e.2)) = none ↔
      ∃ k, k < D ∧
        (lmax.getD k 0 + pad < e.1.getD k 0 ∨
         e.1.getD k 0 <
           (lmin.getD k 0 - pad) - (lmax.getD k 0 - lmin.getD k 0 + 2 * pad + 1))) := by
    intro e he
    rw [Option.map_eq_none', mapMOpt_eq_none_iff]
    constructor
    · rintro ⟨k, hk, hnone⟩
      rw [List.mem_range] at hk
      rw [npResolveIndex_eq_none_iff] at hnone
      refine ⟨k, hk, ?_⟩
      have hcast := hext k hk
      omega
    · rintro ⟨k, hk, hcond⟩
      refine ⟨k, List.mem_range.mpr hk, ?_⟩
      rw [npResolveIndex_eq_none_iff]
      have hcast := hext k hk
      omega
  cases houter : mapMOpt (fun (e : List Int × α) =>
      (mapMOpt (fun k => npResolveIndex
          ((((List.range D).map fun k =>
            lmax.getD k 0 - lmin.getD k 0 + 2 * pad + 1).map Int.toNat).getD k 0)
          (e.1.getD k 0 + (-(lmin.getD k 0) + pad)))
        (List.range D)).map (fun p => (p, e.2))) entries with
  | none =>
    refine iff_of_true rfl ?_
    obtain ⟨e, he, hnone⟩ := (mapMOpt_eq_none_iff _ _).mp houter
    exact ⟨e, he, (hpoint e he).mp hnone⟩
  | some ws =>
    refine iff_of_false (by simp [Except.isOk, Except.toBool]) ?_
    rintro ⟨e, he, hcond⟩
    have hnone := (hpoint e he).mpr hcond
    have hallnone := (mapMOpt_eq_none_iff (fun (e : List Int × α) =>
      (mapMOpt (fun k => npResolveIndex
          ((((List.range D).map fun k =>
            lmax.getD k 0 - lmin.getD k 0 + 2 * pad + 1).map Int.toNat).getD k 0)
          (e.1.getD k 0 + (-(lmin.getD k 0) + pad)))
        (List.range D)).map (fun p => (p, e.2))) entries).mpr ⟨e, he, hnone⟩
    rw [hallnone] at houter
    exact Option.noConfusion houter

/-- C4 amended witness: coordinate `7` exceeds `max + pad = 5`, and the call
indeed fails. -/
theorem grid_from_indices_explicit_bounds_error_iff_witness :
    (([([7], 1)] : List (List Int × Int)) ≠ [] ∧
      (∀ e ∈ ([([7], 1)] : List (List Int × Int)), e.1.length = 1) ∧
      ([1] : List Int).length = 1 ∧ ([5] : List Int).length = 1 ∧
      (∀ k, k < 1 → (0 : Int) ≤ ([5] : List Int).getD k 0 - ([1] : List Int).getD k 0
        + 2 * 0 + 1)) ∧
    (Except.isOk (grid_from_indices 1 ([([7], 1)] : List (List Int × Int)) 0
        (some [1]) (some [5]) 0) = false ↔
      ∃ e ∈ ([([7], 1)] : List (List Int × Int)), ∃ k, k < 1 ∧
        (([5] : List Int).getD k 0 + 0 < e.1.getD k 0 ∨
         e.1.getD k 0 < (([1] : List Int).getD k 0 - 0)
           - (([5] : List Int).getD k 0 - ([1] : List Int).getD k 0 + 2 * 0 + 1))) :=
  ⟨⟨by decide, by decide, by decide, by decide, by decide⟩,
    grid_from_indices_explicit_bounds_error_iff 1 [([7], 1)] 0 [1] [5] 0
      (by decide) (by decide) (by decide) (by decide) (by decide)⟩

/-! ### Border Padder (`pad_array`, source lines 1471-1479)

```
array, pad, value = np.asarray(array), np.asarray(pad), np.asarray(value)
if pad.ndim == 0:
  pad = np.broadcast_to(pad, (array.ndim - value.ndim, 2))
check_eq(value.shape, array.shape[len(pad):])
cval = np.array([[value, value]] * len(pad) + [[0, 0]] * (array.ndim - len(pad)), dtype=object)
if len(pad) < array.ndim:
  pad = np.concatenate([pad, [[0, 0]] * (array.ndim - len(pad))])
return np.pad(array, pad, constant_values=cval)
```
In the block model the element type `α` is the trailing block
`array.shape[len(pad):]` (the shape `check_eq` requires of `value`), so the
pad specification covers exactly the leading (head) axes; a scalar pad `p`
broadcasts to `(before, after) = (p, p)` on every head axis
(`List.replicate a.shape.length (p, p)` at call sites). `np.pad` with
constant values places the original array at offset `before` per axis and
fills the border with `value`. -/

def pad_array {α : Type} (a : NDArray α) (pad : List (Nat × Nat)) (value : α) : NDArray α :=
  ⟨List.zipWith (fun p s => p.1 + s + p.2) pad a.shape,
   fun ix =>
     if ((List.range a.shape.length).all fun k =>
         decide ((pad.getD k (0, 0)).1 ≤ ix.getD k 0) &&
         decide (ix.getD k 0 < (pad.getD k (0, 0)).1 + a.shape.getD k 0)) then
       a.data ((List.range a.shape.length).map fun k => ix.getD k 0 - (pad.getD k (0, 0)).1)
     else value⟩

/-- `inShape` unpacked into coordinatewise bounds. -/
theorem inShape_iff {shape ix : List Nat} :
    inShape shape ix = true ↔ ix.length = shape.length ∧
      ∀ k, k < shape.length → ix.getD k 0 < shape.getD k 0 := by
  induction shape generalizing ix with
  | nil =>
    cases ix with
    | nil => simp [inShape]
    | cons i u => simp [inShape]
  | cons s t ih =>
    cases ix with
    | nil => simp [inShape]
    | cons i u =>
      simp only [inShape, List.length_cons, List.zip_cons_cons, List.all_cons,
        Bool.and_eq_true, beq_iff_eq, decide_eq_true_eq] at ih ⊢
      constructor
      · rintro ⟨hlen, hi, hall⟩
        have hrec := ih.mp ⟨by omega, hall⟩
        refine ⟨by omega, fun k hk => ?_⟩
        cases k with
        | zero => simpa using hi
        | succ k2 =>
          have := hrec.2 k2 (by omega)
          simpa using this
      · rintro ⟨hlen, hall⟩
        have h0 : i < s := by
          have := hall 0 (by omega)
          simpa using this
        refine ⟨by omega, h0, ?_⟩
        exact (ih.mpr ⟨by omega, fun k hk => by
          have := hall (k + 1) (by omega)
          simpa using this⟩).2

/-- Shared helper: padding by zero on every axis leaves shape and in-range
data unchanged. -/
theorem pad_array_zero {α : Type} (a : NDArray α) (value : α) :
    (pad_array a (List.replicate a.shape.length (0, 0)) value).shape = a.shape ∧
    ∀ ix : List Nat, inShape a.shape ix = true →
      (pad_array a (List.replicate a.shape.length (0, 0)) value).data ix = a.data ix := by
  have hrep : ∀ k, k < a.shape.length →
      (List.replicate a.shape.length ((0 : Nat), (0 : Nat))).getD k (0, 0) = (0, 0) := by
    intro k hk
    rw [List.getD_eq_getElem?_getD, List.getElem?_eq_getElem (by simpa using hk)]
    simp
  constructor
  · rw [pad_array]
    apply List.ext_getElem
    · simp [Nat.min_def]
    · intro k h1 h2
      rw [List.getElem_zipWith]
      simp
  · intro ix hix
    obtain ⟨hixlen, hbound⟩ := inShape_iff.mp hix
    rw [pad_array]
    simp only
    rw [if_pos ?hcond]
    case hcond =>
      rw [List.all_eq_true]
      intro k hkmem
      rw [List.mem_range] at hkmem
      rw [hrep k hkmem]
      simp only [Bool.and_eq_true, decide_eq_true_eq]
      exact ⟨Nat.zero_le _, by simpa using hbound k hkmem⟩
    · congr 1
      have hmap : ((List.range a.shape.length).map fun k =>
          ix.getD k 0 - ((List.replicate a.shape.length ((0 : Nat), (0 : Nat))).getD k (0, 0)).1)
          = (List.range a.shape.length).map fun k => ix.getD k 0 := by
        apply List.map_congr_left
        intro k hkmem
        rw [List.mem_range] at hkmem
        rw [hrep k hkmem]
        simp
      rw [hmap, map_getD_range _ hixlen]

/-- C8: padding by a zero amount on every axis returns an array equal to the
input (same shape, same elements at every in-range index). -/
theorem pad_array_zero_id {α : Type} (a : NDArray α) (value : α) :
    (pad_array a (List.replicate a.shape.length (0, 0)) value).shape = a.shape ∧
    ∀ ix : List Nat, inShape a.shape ix = true →
      (pad_array a (List.replicate a.shape.length (0, 0)) value).data ix = a.data ix :=
  pad_array_zero a value

/-- C8 witness: a concrete 1-D array of shape `[3]` with fill value 9. -/
theorem pad_array_zero_id_witness :
    (pad_array ⟨[3], fun ix => ix.getD 0 0 + 5⟩
      (List.replicate ([3] : List Nat).length (0, 0)) 9).shape = [3] ∧
    (pad_array ⟨[3], fun ix => ix.getD 0 0 + 5⟩
      (List.replicate ([3] : List Nat).length (0, 0)) 9).data [2] = (7 : Nat) := by
  have h := pad_array_zero_id (⟨[3], fun ix => ix.getD 0 0 + 5⟩ : NDArray Nat) 9
  refine ⟨h.1, ?_⟩
  rw [h.2 [2] (by decide)]
  rfl

/-! ### Bounding-Box Finder (`bounding_slices`, source lines 1511-1521)

```
a = np.atleast_1d(a)
slices = []
for dim in range(a.ndim):
  line = a.any(axis=tuple(i for i in range(a.ndim) if i != dim))
  (indices,) = line.nonzero()
  if indices.size:
    vmin, vmax = indices[[0, -1]]
    slices.append(slice(vmin, vmax + 1))
  else:
    slices.append(slice(0, 0))
return tuple(slices)
```
The array is viewed through numpy truthiness as a boolean mask (`NDArray
Bool`; an element is "nonzero" when it is `true`). `axisLine a dim j` is the
1-D projection `a.any(axis=...)` at position `j`. -/

def atleast1d {α : Type} (a : NDArray α) : NDArray α :=
  if a.shape = [] then ⟨[1], fun _ => a.data []⟩ else a

def axisLine (a : NDArray Bool) (dim j : Nat) : Bool :=
  (allIndices a.shape).any fun ix => ix.getD dim 0 == j && a.data ix

/-- First and one-past-last true position of a (sorted) index list, or the
empty slice `(0, 0)` when there is none. -/
def sliceOfIdxs (idxs : List Nat) : Nat × Nat :=
  match idxs.head?, idxs.getLast? with
  | some v, some w => (v, w + 1)
  | _, _ => (0, 0)

def bounding_slices (a0 : NDArray Bool) : List (Nat × Nat) :=
  (List.range (atleast1d a0).shape.length).map fun dim =>
    sliceOfIdxs ((List.range ((atleast1d a0).shape.getD dim 0)).filter
      (axisLine (atleast1d a0) dim))

/-- In a `<`-sorted list, the head is at most the last element. -/
theorem head_le_getLast_of_sorted {l : List Nat} (hp : l.Pairwise (· < ·)) {v w : Nat}
    (hv : l.head? = some v) (hw : l.getLast? = some w) : v ≤ w := by
  cases l with
  | nil => exact Option.noConfusion hv
  | cons x t =>
    rw [List.head?_cons, Option.some_inj] at hv
    subst hv
    cases t with
    | nil =>
      rw [List.getLast?_singleton, Option.some_inj] at hw
      omega
    | cons y u =>
      rw [List.getLast?_cons_cons] at hw
      have hwmem : w ∈ y :: u := List.mem_of_getLast?_eq_some hw
      have := List.rel_of_pairwise_cons hp hwmem
      omega

/-- The slice computed from the true positions of a predicate over
`range n`: its bounds, and its exact value in the empty and nonempty cases. -/
theorem sliceOfIdxs_range_spec (n : Nat) (p : Nat → Bool) :
    (sliceOfIdxs ((List.range n).filter p)).1 ≤ (sliceOfIdxs ((List.range n).filter p)).2 ∧
    (sliceOfIdxs ((List.range n).filter p)).2 ≤ n ∧
    ((List.range n).filter p = [] → sliceOfIdxs ((List.range n).filter p) = (0, 0)) ∧
    ((List.range n).filter p ≠ [] → ∃ v w, ((List.range n).filter p).head? = some v ∧
      ((List.range n).filter p).getLast? = some w ∧
      sliceOfIdxs ((List.range n).filter p) = (v, w + 1)) := by
  have hsorted : ((List.range n).filter p).Pairwise (· < ·) :=
    (List.sorted_lt_range n).filter p
  cases hh : ((List.range n).filter p).head? with
  | none =>
    have hnil : (List.range n).filter p = [] := List.head?_eq_none_iff.mp hh
    rw [hnil]
    exact ⟨Nat.le_refl 0, Nat.zero_le n, fun _ => rfl, fun hc => absurd rfl hc⟩
  | some v =>
    cases hl : ((List.range n).filter p).getLast? with
    | none =>
      have hnil : (List.range n).filter p = [] := List.getLast?_eq_none_iff.mp hl
      rw [hnil] at hh
      exact Option.noConfusion hh
    | some w =>
      have hvw : v ≤ w := head_le_getLast_of_sorted hsorted hh hl
      have hwn : w < n := by
        have hmem := List.mem_of_getLast?_eq_some hl
        have := (List.mem_filter.mp hmem).1
        exact List.mem_range.mp this
      have heq : sliceOfIdxs ((List.range n).filter p) = (v, w + 1) := by
        rw [sliceOfIdxs, hh, hl]
      rw [heq]
      refine ⟨by omega, by omega, ?_, ?_⟩
      · intro hnil
        rw [hnil] at hh
        exact Option.noConfusion hh
      · intro _
        exact ⟨v, w, rfl, rfl, rfl⟩

/-- C9: `bounding_slices` yields one half-open range per axis with bounds
within `[0, extent]`; whenever an axis has no position whose projected line
holds a nonzero (`true`) element, that axis's range is the empty `(0, 0)`. -/
theorem bounding_slices_safe (a : NDArray Bool) :
    (bounding_slices a).length = (atleast1d a).shape.length ∧
    ∀ k, k < (atleast1d a).shape.length →
      ((bounding_slices a).getD k (0, 0)).1 ≤ ((bounding_slices a).getD k (0, 0)).2 ∧
      ((bounding_slices a).getD k (0, 0)).2 ≤ (atleast1d a).shape.getD k 0 ∧
      ((∀ j, j < (atleast1d a).shape.getD k 0 → axisLine (atleast1d a) k j = false) →
        (bounding_slices a).getD k (0, 0) = (0, 0)) := by
  constructor
  · rw [bounding_slices]
    simp
  · intro k hk
    have hget : (bounding_slices a).getD k (0, 0)
        = sliceOfIdxs ((List.range ((atleast1d a).shape.getD k 0)).filter
            (axisLine (atleast1d a) k)) := by
      rw [bounding_slices]
      exact getD_map_range _ _ hk
    have hspec := sliceOfIdxs_range_spec ((atleast1d a).shape.getD k 0)
      (axisLine (atleast1d a) k)
    rw [hget]
    refine ⟨hspec.1, hspec.2.1, ?_⟩
    intro hfalse
    apply hspec.2.2.1
    rw [List.filter_eq_nil_iff]
    intro j hj
    rw [List.mem_range] at hj
    rw [hfalse j hj]
    exact Bool.false_ne_true

/-- C9 witness: the all-`true` array of shape `(0, 10)` (zero-size) yields
the empty range `(0, 0)` on both axes. -/
theorem bounding_slices_safe_witness :
    ((1 : Nat) < (atleast1d ⟨[0, 10], fun _ => true⟩).shape.length ∧
      (∀ j, j < (atleast1d (⟨[0, 10], fun _ => true⟩ : NDArray Bool)).shape.getD 1 0 →
        axisLine (atleast1d ⟨[0, 10], fun _ => true⟩) 1 j = false)) ∧
    (bounding_slices (⟨[0, 10], fun _ => true⟩ : NDArray Bool)).getD 1 (0, 0) = (0, 0) :=
  ⟨⟨by decide, by decide⟩,
    ((bounding_slices_safe ⟨[0, 10], fun _ => true⟩).2 1 (by decide)).2.2 (by decide)⟩

/-! ### Bounding Crop (`bounding_crop`, source lines 1562-1567)

```
array, value = np.asarray(array), np.asarray(value)
sample_dim = array.ndim - value.ndim
axis = tuple(range(sample_dim, array.ndim))
mask = (array != value).any(axis)
array = array[bounding_slices(mask)]
return pad_array(array, margin, value)
```
In the block model the element type `α` is the trailing block matched by
`value`, so `mask` is simply elementwise disequality with `value`, and the
slicing `array[slices]` shifts each index by the slice start. -/

def bounding_crop {α : Type} [DecidableEq α] (array : NDArray α) (value : α)
    (margin : List (Nat × Nat)) : NDArray α :=
  let sl := bounding_slices ⟨array.shape, fun ix => decide (array.data ix ≠ value)⟩
  pad_array
    ⟨sl.map fun p => p.2 - p.1,
     fun ix => array.data ((List.range sl.length).map fun t =>
       ix.getD t 0 + (sl.getD t (0, 0)).1)⟩
    margin value

theorem getD_map {β γ : Type} (f : β → γ) {l : List β} {k : Nat} (d : γ) (d2 : β)
    (h : k < l.length) : (l.map f).getD k d = f (l.getD k d2) := by
  rw [List.getD_eq_getElem?_getD, List.getElem?_eq_getElem (by simpa using h),
    List.getElem_map, List.getD_eq_getElem?_getD, List.getElem?_eq_getElem h]
  simp

theorem pad_array_shape_length {α : Type} (a : NDArray α) (margin : List (Nat × Nat))
    (value : α) (hm : margin.length = a.shape.length) :
    (pad_array a margin value).shape.length = a.shape.length := by
  rw [pad_array]
  simp [hm]

theorem pad_array_shape_getD {α : Type} (a : NDArray α) (margin : List (Nat × Nat))
    (value : α) (hm : margin.length = a.shape.length) {k : Nat} (hk : k < a.shape.length) :
    (pad_array a margin value).shape.getD k 0
      = (margin.getD k (0, 0)).1 + a.shape.getD k 0 + (margin.getD k (0, 0)).2 := by
  rw [pad_array]
  simp only
  have hlen : k < (List.zipWith (fun p s => p.1 + s + p.2) margin a.shape).length := by
    simp [hm]
    omega
  rw [List.getD_eq_getElem?_getD, List.getElem?_eq_getElem hlen, List.getElem_zipWith]
  rw [List.getD_eq_getElem?_getD, List.getElem?_eq_getElem (by omega : k < margin.length),
    List.getD_eq_getElem?_getD, List.getElem?_eq_getElem hk]
  simp

theorem pad_array_data_of_inner {α : Type} (a : NDArray α) (margin : List (Nat × Nat))
    (value : α) (ix : List Nat)
    (h : ∀ t, t < a.shape.length → (margin.getD t (0, 0)).1 ≤ ix.getD t 0 ∧
        ix.getD t 0 < (margin.getD t (0, 0)).1 + a.shape.getD t 0) :
    (pad_array a margin value).data ix
      = a.data ((List.range a.shape.length).map fun t =>
          ix.getD t 0 - (margin.getD t (0, 0)).1) := by
  rw [pad_array]
  simp only
  rw [if_pos]
  rw [List.all_eq_true]
  intro t ht
  rw [List.mem_range] at ht
  simp only [Bool.and_eq_true, decide_eq_true_eq]
  exact h t ht

theorem pad_array_data_of_outer {α : Type} (a : NDArray α) (margin : List (Nat × Nat))
    (value : α) (ix : List Nat) {t : Nat} (ht : t < a.shape.length)
    (h : ¬ ((margin.getD t (0, 0)).1 ≤ ix.getD t 0 ∧
        ix.getD t 0 < (margin.getD t (0, 0)).1 + a.shape.getD t 0)) :
    (pad_array a margin value).data ix = value := by
  rw [pad_array]
  simp only
  rw [if_neg]
  intro hall
  rw [List.all_eq_true] at hall
  have := hall t (List.mem_range.mpr ht)
  simp only [Bool.and_eq_true, decide_eq_true_eq] at this
  exact h this

/-- The projected line of the padded mask at position `j` is the line of the
original mask at `j - before`, restricted to the inner window. -/
theorem axisLine_pad {α : Type} [DecidableEq α] (a : NDArray α) (value : α)
    (margin : List (Nat × Nat)) (hm : margin.length = a.shape.length)
    {k : Nat} (hk : k < a.shape.length) (j : Nat) :
    (axisLine ⟨(pad_array a margin value).shape,
        fun ix => decide ((pad_array a margin value).data ix ≠ value)⟩ k j = true) ↔
      ((margin.getD k (0, 0)).1 ≤ j ∧ j - (margin.getD k (0, 0)).1 < a.shape.getD k 0 ∧
        axisLine ⟨a.shape, fun ix => decide (a.data ix ≠ value)⟩ k
          (j - (margin.getD k (0, 0)).1) = true) := by
  rw [axisLine, List.any_eq_true]
  constructor
  · rintro ⟨ix, hixmem, hix⟩
    simp only [Bool.and_eq_true, beq_iff_eq, decide_eq_true_eq] at hix
    obtain ⟨hixk, hmask⟩ := hix
    obtain ⟨hixlen, hixbound⟩ := inShape_iff.mp (mem_allIndices.mp hixmem)
    by_cases hinner : ∀ t, t < a.shape.length → (margin.getD t (0, 0)).1 ≤ ix.getD t 0 ∧
        ix.getD t 0 < (margin.getD t (0, 0)).1 + a.shape.getD t 0
    · have hdata : (pad_array a margin value).data ix
          = a.data ((List.range a.shape.length).map fun t =>
              ix.getD t 0 - (margin.getD t (0, 0)).1) :=
        pad_array_data_of_inner a margin value ix hinner
      rw [hdata] at hmask
      have hk2 := hinner k hk
      refine ⟨by omega, by omega, ?_⟩
      rw [axisLine, List.any_eq_true]
      refine ⟨(List.range a.shape.length).map fun t =>
        ix.getD t 0 - (margin.getD t (0, 0)).1, ?_, ?_⟩
      · rw [mem_allIndices]
        show inShape a.shape _ = true
        rw [inShape_iff]
        constructor
        · simp
        · intro t ht
          rw [getD_map_range _ _ ht]
          have := hinner t ht
          omega
      · simp only [Bool.and_eq_true, beq_iff_eq, decide_eq_true_eq]
        refine ⟨?_, hmask⟩
        rw [getD_map_range _ _ hk, hixk]
    · push_neg at hinner
      obtain ⟨t, ht, hcond⟩ := hinner
      have hdata : (pad_array a margin value).data ix = value := by
        apply pad_array_data_of_outer a margin value ix ht
        intro hc
        have := hcond hc.1
        omega
      rw [hdata] at hmask
      exact absurd rfl hmask
  · rintro ⟨hj1, hj2, hline⟩
    rw [axisLine, List.any_eq_true] at hline
    obtain ⟨iy, hiymem, hiy⟩ := hline
    simp only [Bool.and_eq_true, beq_iff_eq, decide_eq_true_eq] at hiy
    obtain ⟨hiyk, hmask⟩ := hiy
    obtain ⟨hiylen0, hiybound0⟩ := inShape_iff.mp (mem_allIndices.mp hiymem)
    have hiylen : iy.length = a.shape.length := hiylen0
    have hiybound : ∀ t, t < a.shape.length → iy.getD t 0 < a.shape.getD t 0 := hiybound0
    have hiyk2 : iy.getD k 0 = j - (margin.getD k (0, 0)).1 := hiyk
    refine ⟨(List.range a.shape.length).map fun t =>
      (margin.getD t (0, 0)).1 + iy.getD t 0, ?_, ?_⟩
    · rw [mem_allIndices]
      show inShape (pad_array a margin value).shape _ = true
      rw [inShape_iff]
      constructor
      · simp [pad_array_shape_length a margin value hm]
      · intro t ht
        have ht2 : t < a.shape.length := by
          rwa [pad_array_shape_length a margin value hm] at ht
        rw [getD_map_range _ _ ht2, pad_array_shape_getD a margin value hm ht2]
        have := hiybound t ht2
        omega
    · simp only [Bool.and_eq_true, beq_iff_eq, decide_eq_true_eq]
      constructor
      · rw [getD_map_range _ _ hk, hiyk2]
        omega
      · have hinner : ∀ t, t < a.shape.length →
            (margin.getD t (0, 0)).1 ≤
              ((List.range a.shape.length).map fun t =>
                (margin.getD t (0, 0)).1 + iy.getD t 0).getD t 0 ∧
            ((List.range a.shape.length).map fun t =>
                (margin.getD t (0, 0)).1 + iy.getD t 0).getD t 0
              < (margin.getD t (0, 0)).1 + a.shape.getD t 0 := by
          intro t ht
          rw [getD_map_range _ _ ht]
          have := hiybound t ht
          omega
        rw [pad_array_data_of_inner a margin value _ hinner]
        have hmapeq : ((List.range a.shape.length).map fun t =>
            ((List.range a.shape.length).map fun t2 =>
              (margin.getD t2 (0, 0)).1 + iy.getD t2 0).getD t 0
              - (margin.getD t (0, 0)).1) = iy := by
          have hstep : ((List.range a.shape.length).map fun t =>
              ((List.range a.shape.length).map fun t2 =>
                (margin.getD t2 (0, 0)).1 + iy.getD t2 0).getD t 0
                - (margin.getD t (0, 0)).1)
              = (List.range a.shape.length).map fun t => iy.getD t 0 := by
            apply List.map_congr_left
            intro t htmem
            rw [List.mem_range] at htmem
            rw [getD_map_range _ _ htmem]
            omega
          rw [hstep, map_getD_range _ hiylen]
        rw [hmapeq]
        exact hmask

/-- Filtering a window predicate over the padded range is the shifted filter
over the inner range. -/
theorem filter_range_shifted (b s c : Nat) (p q : Nat → Bool)
    (hq : ∀ j, j < b + s + c → (q j = true ↔ (b ≤ j ∧ j - b < s ∧ p (j - b) = true))) :
    (List.range (b + s + c)).filter q = ((List.range s).filter p).map (b + ·) := by
  have hsplit : List.range (b + s + c)
      = (List.range b ++ (List.range s).map (b + ·)) ++ (List.range c).map (b + s + ·) := by
    rw [← List.range_add, ← List.range_add]
  rw [hsplit, List.filter_append, List.filter_append]
  have h1 : (List.range b).filter q = [] := by
    rw [List.filter_eq_nil_iff]
    intro j hj
    rw [List.mem_range] at hj
    intro hc
    have := (hq j (by omega)).mp hc
    omega
  have h2 : ((List.range s).map (b + ·)).filter q = ((List.range s).filter p).map (b + ·) := by
    rw [List.filter_map]
    congr 1
    apply List.filter_congr
    intro j hjmem
    rw [List.mem_range] at hjmem
    have hiff := hq (b + j) (by omega)
    have hsub : b + j - b = j := by omega
    rw [hsub] at hiff
    apply Bool.coe_iff_coe.mp
    rw [Function.comp_apply, hiff]
    constructor
    · rintro ⟨_, _, hp⟩
      exact hp
    · intro hp
      exact ⟨Nat.le_add_right _ _, hjmem, hp⟩
  have h3 : ((List.range c).map (b + s + ·)).filter q = [] := by
    rw [List.filter_eq_nil_iff]
    intro x hx
    obtain ⟨j, hjmem, rfl⟩ := List.mem_map.mp hx
    rw [List.mem_range] at hjmem
    intro hc
    have := (hq (b + s + j) (by omega)).mp hc
    omega
  rw [h1, h2, h3]
  simp

/-- `atleast1d` is the identity on arrays of positive rank. -/
theorem atleast1d_of_ne {α : Type} (a : NDArray α) (h : a.shape ≠ []) :
    atleast1d a = a := by
  rw [atleast1d, if_neg h]

/-- C5 amended: for an array of positive rank that is already tightly
cropped with respect to `value` (its mask's bounding slices span the full
shape), padding by any margin and then bounding-cropping with zero margin
recovers the original array. -/
theorem bounding_crop_pad_roundtrip {α : Type} [DecidableEq α] (a : NDArray α) (value : α)
    (margin : List (Nat × Nat))
    (hrank : a.shape ≠ [])
    (hm : margin.length = a.shape.length)
    (htight : bounding_slices ⟨a.shape, fun ix => decide (a.data ix ≠ value)⟩
        = a.shape.map fun s => (0, s)) :
    (bounding_crop (pad_array a margin value) value
        (List.replicate a.shape.length (0, 0))).shape = a.shape ∧
    ∀ ix, inShape a.shape ix = true →
      (bounding_crop (pad_array a margin value) value
        (List.replicate a.shape.length (0, 0))).data ix = a.data ix := by
  have hD : 0 < a.shape.length := List.length_pos.mpr hrank
  have hpadlen : (pad_array a margin value).shape.length = a.shape.length :=
    pad_array_shape_length a margin value hm
  have hpadne : (pad_array a margin value).shape ≠ [] := by
    intro hc
    rw [hc] at hpadlen
    simp at hpadlen
    omega
  -- the mask of the original array, per axis
  have hmaskat : atleast1d (⟨a.shape, fun ix => decide (a.data ix ≠ value)⟩ : NDArray Bool)
      = ⟨a.shape, fun ix => decide (a.data ix ≠ value)⟩ :=
    atleast1d_of_ne _ hrank
  have hpmaskat : atleast1d (⟨(pad_array a margin value).shape,
        fun ix => decide ((pad_array a margin value).data ix ≠ value)⟩ : NDArray Bool)
      = ⟨(pad_array a margin value).shape,
        fun ix => decide ((pad_array a margin value).data ix ≠ value)⟩ :=
    atleast1d_of_ne _ hpadne
  -- per-axis characterization of tightness
  have htightk : ∀ k, k < a.shape.length →
      sliceOfIdxs ((List.range (a.shape.getD k 0)).filter
        (axisLine ⟨a.shape, fun ix => decide (a.data ix ≠ value)⟩ k))
      = (0, a.shape.getD k 0) := by
    intro k hk
    have h1 := congrArg (fun l => l.getD k ((0 : Nat), (0 : Nat))) htight
    simp only at h1
    rw [bounding_slices, hmaskat] at h1
    have h2 : ((List.range a.shape.length).map fun dim =>
        sliceOfIdxs ((List.range (a.shape.getD dim 0)).filter
          (axisLine ⟨a.shape, fun ix => decide (a.data ix ≠ value)⟩ dim))).getD k (0, 0)
        = sliceOfIdxs ((List.range (a.shape.getD k 0)).filter
          (axisLine ⟨a.shape, fun ix => decide (a.data ix ≠ value)⟩ k)) :=
      getD_map_range _ _ hk
    rw [h2] at h1
    rw [h1, getD_map (fun s => ((0 : Nat), s)) (0, 0) 0 hk]
  -- the padded mask's filter per axis is the shifted filter of the original
  have hfiltp : ∀ k, k < a.shape.length →
      (List.range ((pad_array a margin value).shape.getD k 0)).filter
        (axisLine ⟨(pad_array a margin value).shape,
          fun ix => decide ((pad_array a margin value).data ix ≠ value)⟩ k)
      = ((List.range (a.shape.getD k 0)).filter
          (axisLine ⟨a.shape, fun ix => decide (a.data ix ≠ value)⟩ k)).map
            ((margin.getD k (0, 0)).1 + ·) := by
    intro k hk
    have hsh := pad_array_shape_getD a margin value hm hk
    rw [hsh]
    exact filter_range_shifted (margin.getD k (0, 0)).1 (a.shape.getD k 0)
      (margin.getD k (0, 0)).2 _ _
      (fun j hj => axisLine_pad a value margin hm hk j)
  -- the slices of the padded mask per axis
  have hslp : ∀ k, k < a.shape.length →
      ((sliceOfIdxs ((List.range ((pad_array a margin value).shape.getD k 0)).filter
          (axisLine ⟨(pad_array a margin value).shape,
            fun ix => decide ((pad_array a margin value).data ix ≠ value)⟩ k))).2
        - (sliceOfIdxs ((List.range ((pad_array a margin value).shape.getD k 0)).filter
          (axisLine ⟨(pad_array a margin value).shape,
            fun ix => decide ((pad_array a margin value).data ix ≠ value)⟩ k))).1
        = a.shape.getD k 0) ∧
      (0 < a.shape.getD k 0 →
        sliceOfIdxs ((List.range ((pad_array a margin value).shape.getD k 0)).filter
          (axisLine ⟨(pad_array a margin value).shape,
            fun ix => decide ((pad_array a margin value).data ix ≠ value)⟩ k))
        = ((margin.getD k (0, 0)).1, (margin.getD k (0, 0)).1 + a.shape.getD k 0)) := by
    intro k hk
    rw [hfiltp k hk]
    have hspec := sliceOfIdxs_range_spec (a.shape.getD k 0)
      (axisLine ⟨a.shape, fun ix => decide (a.data ix ≠ value)⟩ k)
    by_cases hnil : (List.range (a.shape.getD k 0)).filter
        (axisLine ⟨a.shape, fun ix => decide (a.data ix ≠ value)⟩ k) = []
    · have heq0 := hspec.2.2.1 hnil
      rw [htightk k hk] at heq0
      have hzero : a.shape.getD k 0 = 0 := by
        have h6 := congrArg Prod.snd heq0
        simp only at h6
        omega
      rw [hnil]
      exact ⟨by rw [hzero]; rfl, fun hpos => absurd hpos (by omega)⟩
    · obtain ⟨v, w, hv, hw, hslice⟩ := hspec.2.2.2 hnil
      rw [htightk k hk] at hslice
      have hv0 : v = 0 := by
        have h6 := congrArg Prod.fst hslice
        simp only at h6
        omega
      have hw1 : w + 1 = a.shape.getD k 0 := by
        have h6 := congrArg Prod.snd hslice
        simp only at h6
        omega
      have heqmap : sliceOfIdxs (((List.range (a.shape.getD k 0)).filter
          (axisLine ⟨a.shape, fun ix => decide (a.data ix ≠ value)⟩ k)).map
            ((margin.getD k (0, 0)).1 + ·))
          = ((margin.getD k (0, 0)).1, (margin.getD k (0, 0)).1 + a.shape.getD k 0) := by
        rw [sliceOfIdxs, List.head?_map, List.getLast?_map, hv, hw]
        simp only [Option.map_some']
        rw [hv0]
        have h7 : (margin.getD k (0, 0)).1 + w + 1
            = (margin.getD k (0, 0)).1 + a.shape.getD k 0 := by omega
        rw [Nat.add_zero, h7]
      rw [heqmap]
      exact ⟨by omega, fun _ => rfl⟩
  -- length and per-axis value of the computed slices of the padded mask
  have hslplen : (bounding_slices ⟨(pad_array a margin value).shape,
      fun ix => decide ((pad_array a margin value).data ix ≠ value)⟩).length
      = a.shape.length := by
    rw [bounding_slices, hpmaskat, List.length_map, List.length_range]
    exact hpadlen
  have hslpget : ∀ k, k < a.shape.length →
      (bounding_slices ⟨(pad_array a margin value).shape,
        fun ix => decide ((pad_array a margin value).data ix ≠ value)⟩).getD k (0, 0)
      = sliceOfIdxs ((List.range ((pad_array a margin value).shape.getD k 0)).filter
          (axisLine ⟨(pad_array a margin value).shape,
            fun ix => decide ((pad_array a margin value).data ix ≠ value)⟩ k)) := by
    intro k hk
    rw [bounding_slices, hpmaskat]
    have hk2 : k < (pad_array a margin value).shape.length := by omega
    exact getD_map_range _ _ hk2
  -- the shape of the cropped (pre-final-pad) array is the original shape
  have hcropshape : ((bounding_slices ⟨(pad_array a margin value).shape,
      fun ix => decide ((pad_array a margin value).data ix ≠ value)⟩).map
        fun p => p.2 - p.1) = a.shape := by
    apply List.ext_getElem
    · rw [List.length_map, hslplen]
    · intro k h1 h2
      rw [List.getElem_map]
      have hk : k < a.shape.length := h2
      have hgd : (bounding_slices ⟨(pad_array a margin value).shape,
          fun ix => decide ((pad_array a margin value).data ix ≠ value)⟩)[k]
          = (bounding_slices ⟨(pad_array a margin value).shape,
            fun ix => decide ((pad_array a margin value).data ix ≠ value)⟩).getD k (0, 0) := by
        rw [List.getD_eq_getElem?_getD, List.getElem?_eq_getElem (by omega)]
        rfl
      rw [hgd, hslpget k hk]
      have := (hslp k hk).1
      rw [this]
      rw [List.getD_eq_getElem?_getD, List.getElem?_eq_getElem hk]
      rfl
  have hcroplen : a.shape.length = (((bounding_slices ⟨(pad_array a margin value).shape,
      fun ix => decide ((pad_array a margin value).data ix ≠ value)⟩).map
        fun p => p.2 - p.1) : List Nat).length := by
    rw [hcropshape]
  -- zero-margin final pad on the cropped structure
  have hz := pad_array_zero
    (⟨(bounding_slices ⟨(pad_array a margin value).shape,
        fun ix => decide ((pad_array a margin value).data ix ≠ value)⟩).map
          fun p => p.2 - p.1,
      fun ix => (pad_array a margin value).data
        ((List.range (bounding_slices ⟨(pad_array a margin value).shape,
          fun ix => decide ((pad_array a margin value).data ix ≠ value)⟩).length).map
            fun t => ix.getD t 0 + ((bounding_slices ⟨(pad_array a margin value).shape,
              fun ix => decide ((pad_array a margin value).data ix ≠ value)⟩).getD t (0, 0)).1)⟩
      : NDArray α)
    value
  have hreplen : List.replicate a.shape.length ((0 : Nat), (0 : Nat))
      = List.replicate ((((bounding_slices ⟨(pad_array a margin value).shape,
          fun ix => decide ((pad_array a margin value).data ix ≠ value)⟩).map
            fun p => p.2 - p.1) : List Nat)).length (0, 0) := by
    rw [hcropshape]
  constructor
  · show (pad_array
      ⟨(bounding_slices ⟨(pad_array a margin value).shape,
          fun ix => decide ((pad_array a margin value).data ix ≠ value)⟩).map
            fun p => p.2 - p.1,
        fun ix => (pad_array a margin value).data
          ((List.range (bounding_slices ⟨(pad_array a margin value).shape,
            fun ix => decide ((pad_array a margin value).data ix ≠ value)⟩).length).map
              fun t => ix.getD t 0 + ((bounding_slices ⟨(pad_array a margin value).shape,
                fun ix => decide ((pad_array a margin value).data ix ≠ value)⟩).getD t (0, 0)).1)⟩
      (List.replicate a.shape.length (0, 0)) value).shape = a.shape
    rw [hreplen, hz.1]
    exact hcropshape
  · intro ix hix
    obtain ⟨hixlen, hixbound⟩ := inShape_iff.mp hix
    have hpos : ∀ k, k < a.shape.length → 0 < a.shape.getD k 0 := by
      intro k hk
      have := hixbound k hk
      omega
    have hixcrop : inShape (((bounding_slices ⟨(pad_array a margin value).shape,
        fun ix => decide ((pad_array a margin value).data ix ≠ value)⟩).map
          fun p => p.2 - p.1) : List Nat) ix = true := by
      rw [hcropshape]
      exact hix
    show (pad_array
      ⟨(bounding_slices ⟨(pad_array a margin value).shape,
          fun ix => decide ((pad_array a margin value).data ix ≠ value)⟩).map
            fun p => p.2 - p.1,
        fun ix => (pad_array a margin value).data
          ((List.range (bounding_slices ⟨(pad_array a margin value).shape,
            fun ix => decide ((pad_array a margin value).data ix ≠ value)⟩).length).map
              fun t => ix.getD t 0 + ((bounding_slices ⟨(pad_array a margin value).shape,
                fun ix => decide ((pad_array a margin value).data ix ≠ value)⟩).getD t (0, 0)).1)⟩
      (List.replicate a.shape.length (0, 0)) value).data ix = a.data ix
    rw [hreplen, hz.2 ix hixcrop]
    show (pad_array a margin value).data
      ((List.range (bounding_slices ⟨(pad_array a margin value).shape,
        fun ix => decide ((pad_array a margin value).data ix ≠ value)⟩).length).map
          fun t => ix.getD t 0 + ((bounding_slices ⟨(pad_array a margin value).shape,
            fun ix => decide ((pad_array a margin value).data ix ≠ value)⟩).getD t (0, 0)).1)
      = a.data ix
    have hlowmap : ((List.range (bounding_slices ⟨(pad_array a margin value).shape,
        fun ix => decide ((pad_array a margin value).data ix ≠ value)⟩).length).map
          fun t => ix.getD t 0 + ((bounding_slices ⟨(pad_array a margin value).shape,
            fun ix => decide ((pad_array a margin value).data ix ≠ value)⟩).getD t (0, 0)).1)
        = (List.range a.shape.length).map
            fun t => ix.getD t 0 + (margin.getD t (0, 0)).1 := by
      rw [hslplen]
      apply List.map_congr_left
      intro t htmem
      rw [List.mem_range] at htmem
      rw [hslpget t htmem, (hslp t htmem).2 (hpos t htmem)]
    rw [hlowmap]
    have hinner : ∀ t, t < a.shape.length →
        (margin.getD t (0, 0)).1 ≤
          ((List.range a.shape.length).map
            fun t => ix.getD t 0 + (margin.getD t (0, 0)).1).getD t 0 ∧
        ((List.range a.shape.length).map
            fun t => ix.getD t 0 + (margin.getD t (0, 0)).1).getD t 0
          < (margin.getD t (0, 0)).1 + a.shape.getD t 0 := by
      intro t ht
      rw [getD_map_range _ _ ht]
      have := hixbound t ht
      omega
    rw [pad_array_data_of_inner a margin value _ hinner]
    have hmapeq : ((List.range a.shape.length).map fun t =>
        ((List.range a.shape.length).map
          fun t2 => ix.getD t2 0 + (margin.getD t2 (0, 0)).1).getD t 0
          - (margin.getD t (0, 0)).1) = ix := by
      have hstep : ((List.range a.shape.length).map fun t =>
          ((List.range a.shape.length).map
            fun t2 => ix.getD t2 0 + (margin.getD t2 (0, 0)).1).getD t 0
            - (margin.getD t (0, 0)).1)
          = (List.range a.shape.length).map fun t => ix.getD t 0 := by
        apply List.map_congr_left
        intro t htmem
        rw [List.mem_range] at htmem
        rw [getD_map_range _ _ htmem]
        omega
      rw [hstep, map_getD_range _ hixlen]
    rw [hmapeq]

/-- The 1-D array `[0, 1]`: not entirely `0`, but not tightly cropped. -/
def c5arr : NDArray Int := ⟨[2], fun ix => if ix = [1] then 1 else 0⟩

/-- C5 counterexample: `c5arr = [0, 1]` is not entirely equal to the
reference `0`, yet `bounding_crop(pad_array(c5arr, 0, 0), 0, margin=0)` has
shape `[1]` (it is `[1]`), not the shape `[2]` of `c5arr`: the round trip
fails for arrays that are not already tightly cropped. -/
theorem bounding_crop_roundtrip_cex :
    c5arr.shape = [2] ∧ c5arr.data [1] = 1 ∧ ((1 : Int) ≠ 0) ∧
    (bounding_crop (pad_array c5arr [(0, 0)] 0) 0
      (List.replicate c5arr.shape.length (0, 0))).shape = [1] := by
  refine ⟨rfl, rfl, by decide, by decide⟩

/-- The tight 1-D array `[7]` used in the C5 witness. -/
def c5tight : NDArray Int := ⟨[1], fun _ => 7⟩

/-- C5 amended witness: the theorem applied to the tight array `[7]` with
reference `0` and margin `(2, 3)`. -/
theorem bounding_crop_pad_roundtrip_witness :
    (c5tight.shape ≠ [] ∧ ([(2, 3)] : List (Nat × Nat)).length = c5tight.shape.length ∧
      bounding_slices ⟨c5tight.shape, fun ix => decide (c5tight.data ix ≠ 0)⟩
        = c5tight.shape.map fun s => (0, s)) ∧
    ((bounding_crop (pad_array c5tight [(2, 3)] 0) 0
        (List.replicate c5tight.shape.length (0, 0))).shape = c5tight.shape ∧
      ∀ ix, inShape c5tight.shape ix = true →
        (bounding_crop (pad_array c5tight [(2, 3)] 0) 0
          (List.replicate c5tight.shape.length (0, 0))).data ix = c5tight.data ix) :=
  ⟨⟨by decide, by decide, by decide⟩,
    bounding_crop_pad_roundtrip c5tight 0 [(2, 3)] (by decide) (by decide) (by decide)⟩

/-! ### Grid Assembler (`assemble_arrays`, source lines 1880-1943)

The grid rank is `len(shape)`; arrays are modelled with their leading
(head) dimensions as `NDArray` shape and the shared tail block as the
element type `α`. The model follows the source:

1. `shape = _fit_shape(shape, num)`.
2. `head_dims` maps each grid cell (in row-major order, `np.unravel_index`)
   to the assigned array's head dimensions, zero beyond `num`.
3. Per axis, the slice length is the maximum of the head dimension over the
   cells sharing that axis coordinate (`Asm.cellLen0`); `total_length` adds
   `spacing * (shape_axis - 1)`; `round_to_even` lengthens the last slice
   when the total is odd (`Asm.cellLen`).
4. `spaced_lengths = np.insert(lengths, 0, 0)` with `spacing` added to the
   interior entries, and origins are its cumulative sums (`Asm.origin` is
   `cumsum[j]`, realized as the sum of the first `j+1` spaced lengths).
5. The output extent per axis is `origin(ns_k)`; the output starts filled
   with `background` and each array is written at its cell origin plus the
   alignment offset (`remainder // 2` for center, via `Int.fdiv`).

Slice semantics are modelled for nonnegative slice starts, which covers
every execution reachable in the claims (negative spacing keeps all
computed starts nonnegative in the counterexample below). -/

inductive Align where
  | start
  | center
  | stop
deriving DecidableEq

def alignOffset (length size : Int) (a : Align) : Int :=
  match a with
  | Align.start => 0
  | Align.stop => length - size
  | Align.center => Int.fdiv (length - size) 2

/-- `np.unravel_index` for row-major order. -/
def unravel : List Nat → Nat → List Nat
  | [], _ => []
  | _ :: rest, i => i / rest.prod :: unravel rest (i % rest.prod)

/-- The assembling context: arrays, fitted grid shape `ns`, spacing,
round-to-even flag and alignment codes per array and axis, background. -/
structure Asm (α : Type) where
  arrays : List (NDArray α)
  ns : List Nat
  sp : Nat → Int
  rte : Nat → Bool
  align : Nat → Nat → Align
  background : α

def Asm.arrayAt {α : Type} (c : Asm α) (i : Nat) : NDArray α :=
  (c.arrays.get? i).getD ⟨[], fun _ => c.background⟩

/-- Head dimension along axis `k` of the array in linear cell `i` (0 for
cells beyond the array count). -/
def Asm.headDim {α : Type} (c : Asm α) (i k : Nat) : Nat :=
  match c.arrays.get? i with
  | some a => a.shape.getD k 0
  | none => 0

/-- Length of grid slice `j` along axis `k`: the maximum head dimension over
the cells whose coordinate along `k` is `j`. -/
def Asm.cellLen0 {α : Type} (c : Asm α) (k j : Nat) : Nat :=
  ((List.range c.ns.prod).filter fun i => (unravel c.ns i).getD k 0 == j).foldl
    (fun m i => max m (c.headDim i k)) 0

/-- `total_length` along axis `k` before even-rounding. -/
def Asm.total0 {α : Type} (c : Asm α) (k : Nat) : Int :=
  (((List.range (c.ns.getD k 0)).map fun j => (c.cellLen0 k j : Int)).sum)
    + c.sp k * ((c.ns.getD k 0 : Int) - 1)

/-- Slice length after the even-rounding adjustment of the last slice. -/
def Asm.cellLen {α : Type} (c : Asm α) (k j : Nat) : Nat :=
  c.cellLen0 k j +
    if c.rte k && (c.total0 k % 2 == 1) && (j + 1 == c.ns.getD k 0) then 1 else 0

/-- `np.insert(lengths, 0, 0)` with `spacing` added to interior entries. -/
def Asm.spacedLengths {α : Type} (c : Asm α) (k : Nat) : List Int :=
  (0 : Int) :: ((List.range (c.ns.getD k 0)).map fun j =>
    (c.cellLen k j : Int) + if j + 1 < c.ns.getD k 0 then c.sp k else 0)

/-- Cumulative sum of the spaced lengths: the origin of slice `j` along
axis `k` (and, at `j = ns_k`, the output extent along `k`). -/
def Asm.origin {α : Type} (c : Asm α) (k j : Nat) : Int :=
  ((c.spacedLengths k).take (j + 1)).sum

/-- Aligned start of array `i` along axis `k`. -/
def Asm.startOf {α : Type} (c : Asm α) (i k : Nat) : Int :=
  c.origin k ((unravel c.ns i).getD k 0)
    + alignOffset (c.cellLen k ((unravel c.ns i).getD k 0)) (c.headDim i k) (c.align i k)

/-- The region of the output written by array `i`. -/
def Asm.inRegion {α : Type} (c : Asm α) (i : Nat) (pos : List Nat) : Bool :=
  pos.length == c.ns.length && (List.range c.ns.length).all fun k =>
    decide (c.startOf i k ≤ (pos.getD k 0 : Int)) &&
    decide ((pos.getD k 0 : Int) < c.startOf i k + (c.headDim i k : Int))

/-- The index into array `i` corresponding to output position `pos`. -/
def Asm.rel {α : Type} (c : Asm α) (i : Nat) (pos : List Nat) : List Nat :=
  (List.range c.ns.length).map fun k => ((pos.getD k 0 : Int) - c.startOf i k).toNat

/-- One write: copy array `i` into its aligned slice of the output. -/
def Asm.write {α : Type} (c : Asm α) (g : List Nat → α) (i : Nat) : List Nat → α :=
  fun pos => if c.inRegion i pos then (c.arrayAt i).data (c.rel i pos) else g pos

/-- The assembled output array. -/
def Asm.out {α : Type} (c : Asm α) : NDArray α :=
  ⟨(List.range c.ns.length).map fun k => (c.origin k (c.ns.getD k 0)).toNat,
   (List.range c.arrays.length).foldl c.write fun _ => c.background⟩

def assemble_arrays {α : Type} (arrays : List (NDArray α)) (shape : List Int)
    (background : α) (align : Nat → Nat → Align) (spacing : Nat → Int)
    (round_to_even : Nat → Bool) : Except String (NDArray α) :=
  if arrays.length = 0 then
    Except.error "There must be at least one input array."
  else
    match fit_shape shape arrays.length with
    | Except.error e => Except.error e
    | Except.ok ishape =>
      if arrays.all fun a => a.shape.length == ishape.length then
        Except.ok (Asm.out ⟨arrays, ishape.map Int.toNat, spacing, round_to_even,
          align, background⟩)
      else
        Except.error "Shapes of arrays do not all end in tail_dims"

/-- A 2-D integer array from a list of rows. -/
def ofList2 (rows : List (List Int)) : NDArray Int :=
  ⟨[rows.length, (rows.getD 0 []).length],
   fun ix => (rows.getD (ix.getD 0 0) []).getD (ix.getD 1 0) 0⟩

/-- The five arrays of the worked example. -/
def c7arrays : List (NDArray Int) :=
  [ofList2 [[1, 2, 3]], ofList2 [[5], [6]], ofList2 [[7]],
   ofList2 [[8, 9]], ofList2 [[3, 4, 5]]]

/-- C7: assembling the five example arrays into a `(2, 3)` grid with
background 0, center alignment and zero spacing yields exactly the
documented 3x7 array. -/
theorem assemble_arrays_example :
    gridEqList (assemble_arrays c7arrays [2, 3] 0 (fun _ _ => Align.center)
        (fun _ => 0) (fun _ => false))
      [3, 7]
      (fun ix => ([[1, 2, 3, 0, 5, 0, 7],
                   [0, 0, 0, 0, 6, 0, 0],
                   [8, 9, 0, 3, 4, 5, 0]].getD (ix.getD 0 0) []).getD (ix.getD 1 0) 0)
      = true := by
  decide

/-- Two 1-D arrays `[1]` and `[2]` for the C1 counterexample. -/
def cexArrays : List (NDArray Int) := [⟨[1], fun _ => 1⟩, ⟨[1], fun _ => 2⟩]

/-- The assembling context of the C1 counterexample: grid `(2,)`, spacing
`-1`, center alignment, background 0. -/
def cexAsm : Asm Int :=
  ⟨cexArrays, [2], fun _ => -1, fun _ => false, fun _ _ => Align.center, 0⟩

/-- C1 counterexample: with spacing `-1` the call succeeds, the written
regions of the two distinct input arrays coincide (both are `{[0]}`), the
single output element is `2`, and the element `1` of input array 0 appears
nowhere unmodified: containment and no-overlap both fail on a successful
call. -/
theorem assemble_arrays_overlap_cex :
    assemble_arrays cexArrays [2] 0 (fun _ _ => Align.center) (fun _ => -1)
        (fun _ => false) = Except.ok cexAsm.out ∧
    cexAsm.inRegion 0 [0] = true ∧
    cexAsm.inRegion 1 [0] = true ∧
    cexAsm.out.shape = [1] ∧
    cexAsm.out.data [0] = 2 ∧
    ¬ cexAsm.out.data [0] = 1 := by
  refine ⟨rfl, by decide, by decide, by decide, by decide, by decide⟩

/-- A successful `fit_shape` with at least one element yields positive
dimensions whose product is at least `num`. -/
theorem fit_shape_pos_prod {shape : List Int} {num : Nat} {ishape : List Int}
    (hok : fit_shape shape num = Except.ok ishape) (hnum : 1 ≤ num) :
    (∀ d ∈ ishape, 0 < d) ∧ (num : Int) ≤ ishape.prod := by
  rw [fit_shape] at hok
  by_cases h1 : (shape.all fun dim => decide (0 < dim) || (dim == -1)) = true
  · rw [if_neg (by simp [h1])] at hok
    have hall : ∀ d ∈ shape, d ≠ -1 → 0 < d := by
      intro d hd hne
      rw [List.all_eq_true] at h1
      have := h1 d hd
      simp only [Bool.or_eq_true, decide_eq_true_eq, beq_iff_eq] at this
      rcases this with h | h
      · exact h
      · exact absurd h hne
    by_cases h2 : 1 < shape.countP (fun dim => dim == -1)
    · rw [if_pos h2] at hok
      exact Except.noConfusion hok
    · rw [if_neg h2] at hok
      by_cases h3 : (-1 : Int) ∈ shape
      · rw [if_pos h3] at hok
        have hone : shape.countP (fun dim => dim == -1) = 1 := by
          have hge : 0 < shape.countP (fun dim => dim == -1) :=
            List.countP_pos_iff.mpr ⟨-1, h3, by simp⟩
          omega
        have hspos : 0 < (shape.filter fun dim => !(dim == -1)).prod :=
          filter_prod_pos hall
        have hceil := ceil_fdiv_spec num hspos
        have hrpos : 0 < Int.fdiv ((num : Int)
            + (shape.filter fun dim => !(dim == -1)).prod - 1)
            ((shape.filter fun dim => !(dim == -1)).prod) := by
          by_contra hc
          push_neg at hc
          have : Int.fdiv ((num : Int) + (shape.filter fun dim => !(dim == -1)).prod - 1)
              ((shape.filter fun dim => !(dim == -1)).prod)
              * (shape.filter fun dim => !(dim == -1)).prod ≤ 0 :=
            mul_nonpos_iff.mpr (Or.inr ⟨hc, le_of_lt hspos⟩)
          have := le_trans hceil.1 this
          omega
        have hish : ishape = shape.map fun dim =>
            if dim = -1 then Int.fdiv ((num : Int)
              + (shape.filter fun d => !(d == -1)).prod - 1)
              ((shape.filter fun d => !(d == -1)).prod) else dim := by
          have := Except.ok.inj hok
          exact this.symm
        constructor
        · intro d hd
          rw [hish] at hd
          obtain ⟨d0, hd0, rfl⟩ := List.mem_map.mp hd
          by_cases hd1 : d0 = -1
          · rw [if_pos hd1]
            exact hrpos
          · rw [if_neg hd1]
            exact hall d0 hd0 hd1
        · rw [hish, map_prod_single_wildcard hone]
          exact hceil.1
      · rw [if_neg h3] at hok
        by_cases h4 : shape.prod < (num : Int)
        · rw [if_pos h4] at hok
          exact Except.noConfusion hok
        · rw [if_neg h4] at hok
          have hish : ishape = shape := (Except.ok.inj hok).symm
          subst hish
          constructor
          · intro d hd
            apply hall d hd
            intro hc
            exact h3 (hc ▸ hd)
          · omega
  · rw [if_pos (by simpa using h1)] at hok
    exact Except.noConfusion hok

/-- Cast of the product of `map Int.toNat` over nonnegative entries. -/
theorem prod_map_toNat {l : List Int} (h : ∀ d ∈ l, 0 ≤ d) :
    (((l.map Int.toNat).prod : Nat) : Int) = l.prod := by
  induction l with
  | nil => rfl
  | cons a t ih =>
    have hstep : (((a :: t).map Int.toNat).prod : Int)
        = ((a.toNat : Nat) : Int) * (((t.map Int.toNat).prod : Nat) : Int) := by
      rw [List.map_cons, List.prod_cons]
      push_cast
      ring
    rw [hstep, Int.toNat_of_nonneg (h a (List.mem_cons_self _ _)),
      ih fun d hd => h d (List.mem_cons_of_mem _ hd), List.prod_cons]

theorem unravel_length (ns : List Nat) (i : Nat) : (unravel ns i).length = ns.length := by
  induction ns generalizing i with
  | nil => rfl
  | cons n rest ih =>
    rw [unravel, List.length_cons, List.length_cons, ih]

theorem unravel_lt {ns : List Nat} (hpos : ∀ d ∈ ns, 0 < d) {i : Nat} (hi : i < ns.prod) :
    ∀ k, k < ns.length → (unravel ns i).getD k 0 < ns.getD k 0 := by
  induction ns generalizing i with
  | nil => intro k hk; exact absurd hk (by simp)
  | cons n rest ih =>
    intro k hk
    have hrest : 0 < rest.prod :=
      List.prod_pos fun d hd => hpos d (List.mem_cons_of_mem _ hd)
    cases k with
    | zero =>
      rw [unravel]
      simp only [List.getD_cons_zero]
      rw [List.prod_cons] at hi
      exact Nat.div_lt_of_lt_mul (by rw [Nat.mul_comm] at hi; exact hi)
    | succ k2 =>
      rw [unravel]
      simp only [List.getD_cons_succ]
      exact ih (fun d hd => hpos d (List.mem_cons_of_mem _ hd))
        (Nat.mod_lt _ hrest) k2 (by simpa using hk)

theorem unravel_inj {ns : List Nat} (hpos : ∀ d ∈ ns, 0 < d) {i i2 : Nat}
    (hi : i < ns.prod) (hi2 : i2 < ns.prod) (h : unravel ns i = unravel ns i2) : i = i2 := by
  induction ns generalizing i i2 with
  | nil =>
    rw [List.prod_nil] at hi hi2
    omega
  | cons n rest ih =>
    rw [unravel, unravel] at h
    have hrest : 0 < rest.prod :=
      List.prod_pos fun d hd => hpos d (List.mem_cons_of_mem _ hd)
    have hdiv : i / rest.prod = i2 / rest.prod := (List.cons.inj h).1
    have hmod : i % rest.prod = i2 % rest.prod :=
      ih (fun d hd => hpos d (List.mem_cons_of_mem _ hd))
        (Nat.mod_lt _ hrest) (Nat.mod_lt _ hrest) (List.cons.inj h).2
    have h1 := Nat.div_add_mod i rest.prod
    have h2 := Nat.div_add_mod i2 rest.prod
    rw [hdiv, hmod] at h1
    omega

theorem le_foldl_max_nat {β : Type} (f : β → Nat) (l : List β) (m : Nat) {x : β}
    (h : x ∈ l) : f x ≤ l.foldl (fun acc y => max acc (f y)) m := by
  induction l generalizing m with
  | nil => exact absurd h (List.not_mem_nil _)
  | cons y t ih =>
    rw [List.foldl_cons]
    rcases List.mem_cons.mp h with heq | hmt
    · subst heq
      have hinit : ∀ (l2 : List β) (m2 : Nat), m2 ≤ l2.foldl (fun acc y => max acc (f y)) m2 := by
        intro l2
        induction l2 with
        | nil => intro m2; exact Nat.le_refl m2
        | cons z u ih2 =>
          intro m2
          rw [List.foldl_cons]
          exact le_trans (Nat.le_max_left _ _) (ih2 _)
      exact le_trans (Nat.le_max_right _ _) (hinit t _)
    · exact ih _ hmt

theorem Asm.headDim_le_cellLen0 {α : Type} (c : Asm α) {i : Nat} (hi : i < c.ns.prod)
    (k : Nat) : c.headDim i k ≤ c.cellLen0 k ((unravel c.ns i).getD k 0) := by
  rw [Asm.cellLen0]
  exact le_foldl_max_nat (fun i2 => c.headDim i2 k) _ 0
    (by rw [List.mem_filter]; exact ⟨List.mem_range.mpr hi, by simp⟩)

theorem Asm.cellLen0_le_cellLen {α : Type} (c : Asm α) (k j : Nat) :
    c.cellLen0 k j ≤ c.cellLen k j :=
  Nat.le_add_right _ _

theorem Asm.headDim_eq {α : Type} (c : Asm α) {i : Nat} (hi : i < c.arrays.length)
    (k : Nat) : c.headDim i k = (c.arrayAt i).shape.getD k 0 := by
  rw [Asm.headDim, Asm.arrayAt, List.get?_eq_getElem?, List.getElem?_eq_getElem hi]
  rfl

theorem Asm.spacedLengths_length {α : Type} (c : Asm α) (k : Nat) :
    (c.spacedLengths k).length = c.ns.getD k 0 + 1 := by
  rw [Asm.spacedLengths]
  simp

theorem Asm.spacedLengths_nonneg {α : Type} (c : Asm α) (hsp : ∀ k, 0 ≤ c.sp k)
    (k : Nat) : ∀ x ∈ c.spacedLengths k, 0 ≤ x := by
  intro x hx
  rw [Asm.spacedLengths] at hx
  rcases List.mem_cons.mp hx with heq | hmt
  · omega
  · obtain ⟨j, _, rfl⟩ := List.mem_map.mp hmt
    have h1 : (0 : Int) ≤ (c.cellLen k j : Int) := Int.natCast_nonneg _
    have h2 : (0 : Int) ≤ if j + 1 < c.ns.getD k 0 then c.sp k else 0 := by
      split
      · exact hsp k
      · exact le_refl 0
    omega

theorem Asm.origin_nonneg {α : Type} (c : Asm α) (hsp : ∀ k, 0 ≤ c.sp k) (k j : Nat) :
    0 ≤ c.origin k j := by
  rw [Asm.origin]
  apply List.sum_nonneg
  intro x hx
  exact c.spacedLengths_nonneg hsp k x (List.mem_of_mem_take hx)

theorem Asm.origin_succ {α : Type} (c : Asm α) (k j : Nat) (hj : j < c.ns.getD k 0) :
    c.origin k (j + 1) = c.origin k j + (c.cellLen k j : Int)
      + (if j + 1 < c.ns.getD k 0 then c.sp k else 0) := by
  have hq : (c.spacedLengths k)[j + 1]? = some ((c.cellLen k j : Int)
      + if j + 1 < c.ns.getD k 0 then c.sp k else 0) := by
    rw [Asm.spacedLengths, List.getElem?_cons_succ, List.getElem?_map,
      List.getElem?_range hj]
    rfl
  rw [Asm.origin, Asm.origin, List.take_succ, List.sum_append, hq]
  simp only [Option.toList_some, List.sum_cons, List.sum_nil]
  ring

theorem Asm.origin_add_len_le {α : Type} (c : Asm α) (hsp : ∀ k, 0 ≤ c.sp k) (k : Nat)
    {j j2 : Nat} (hj : j < j2) (hj2 : j2 ≤ c.ns.getD k 0) :
    c.origin k j + (c.cellLen k j : Int) ≤ c.origin k j2 := by
  induction j2 with
  | zero => omega
  | succ m ih =>
    have hm : m < c.ns.getD k 0 := by omega
    have hstep := c.origin_succ k m hm
    have hif : (0 : Int) ≤ if m + 1 < c.ns.getD k 0 then c.sp k else 0 := by
      split
      · exact hsp k
      · exact le_refl 0
    by_cases hjm : j = m
    · subst hjm
      omega
    · have hrec := ih (by omega) (by omega)
      have hlen : (0 : Int) ≤ (c.cellLen k m : Int) := Int.natCast_nonneg _
      omega

theorem alignOffset_bounds {length size : Int} (h : size ≤ length) (hsize : 0 ≤ size)
    (al : Align) :
    0 ≤ alignOffset length size al ∧ alignOffset length size al + size ≤ length := by
  cases al with
  | start =>
    rw [alignOffset]
    omega
  | stop =>
    rw [alignOffset]
    omega
  | center =>
    rw [alignOffset, Int.fdiv_eq_ediv _ (by omega : (0 : Int) ≤ 2)]
    omega

theorem Asm.startOf_bounds {α : Type} (c : Asm α) {i : Nat} (hi : i < c.ns.prod) (k : Nat) :
    c.origin k ((unravel c.ns i).getD k 0) ≤ c.startOf i k ∧
    c.startOf i k + (c.headDim i k : Int)
      ≤ c.origin k ((unravel c.ns i).getD k 0)
        + (c.cellLen k ((unravel c.ns i).getD k 0) : Int) := by
  have h1 : c.headDim i k ≤ c.cellLen0 k ((unravel c.ns i).getD k 0) :=
    c.headDim_le_cellLen0 hi k
  have h2 := c.cellLen0_le_cellLen k ((unravel c.ns i).getD k 0)
  have hoff := alignOffset_bounds
    (show ((c.headDim i k : Nat) : Int) ≤ ((c.cellLen k ((unravel c.ns i).getD k 0) : Nat) : Int)
      from by exact_mod_cast le_trans h1 h2)
    (Int.natCast_nonneg _) (c.align i k)
  rw [Asm.startOf]
  omega

theorem Asm.inRegion_iff {α : Type} (c : Asm α) (i : Nat) (pos : List Nat) :
    c.inRegion i pos = true ↔ pos.length = c.ns.length ∧
      ∀ k, k < c.ns.length → c.startOf i k ≤ (pos.getD k 0 : Int) ∧
        (pos.getD k 0 : Int) < c.startOf i k + (c.headDim i k : Int) := by
  rw [Asm.inRegion, Bool.and_eq_true, beq_iff_eq, List.all_eq_true]
  constructor
  · rintro ⟨h1, h2⟩
    refine ⟨h1, fun k hk => ?_⟩
    have := h2 k (List.mem_range.mpr hk)
    simp only [Bool.and_eq_true, decide_eq_true_eq] at this
    exact this
  · rintro ⟨h1, h2⟩
    refine ⟨h1, fun k hk => ?_⟩
    rw [List.mem_range] at hk
    simp only [Bool.and_eq_true, decide_eq_true_eq]
    exact h2 k hk

theorem Asm.foldl_write_of_none {α : Type} (c : Asm α) (g : List Nat → α) (l : List Nat)
    (pos : List Nat) (h : ∀ i ∈ l, c.inRegion i pos = false) :
    (l.foldl c.write g) pos = g pos := by
  induction l generalizing g with
  | nil => rfl
  | cons x t ih =>
    rw [List.foldl_cons, ih _ fun i hi => h i (List.mem_cons_of_mem _ hi)]
    rw [Asm.write]
    rw [h x (List.mem_cons_self _ _)]
    rfl

theorem Asm.foldl_write_of_unique {α : Type} (c : Asm α) (g : List Nat → α) (l : List Nat)
    (pos : List Nat) {i : Nat} (hil : i ∈ l) (hreg : c.inRegion i pos = true)
    (huniq : ∀ i2 ∈ l, i2 ≠ i → c.inRegion i2 pos = false) :
    (l.foldl c.write g) pos = (c.arrayAt i).data (c.rel i pos) := by
  induction l generalizing g with
  | nil => exact absurd hil (List.not_mem_nil _)
  | cons x t ih =>
    rw [List.foldl_cons]
    by_cases hx : i ∈ t
    · exact ih _ hx fun i2 h2 => huniq i2 (List.mem_cons_of_mem _ h2)
    · have hix : i = x := by
        rcases List.mem_cons.mp hil with heq | hmt
        · exact heq
        · exact absurd hmt hx
      subst hix
      rw [c.foldl_write_of_none _ t pos fun i2 h2 =>
        huniq i2 (List.mem_cons_of_mem _ h2) fun hc => hx (hc ▸ h2)]
      rw [Asm.write, hreg]
      rfl

/-- Distinct linear cells occupy disjoint regions of the output. -/
theorem Asm.regions_disjoint {α : Type} (c : Asm α) (hpos : ∀ d ∈ c.ns, 0 < d)
    (hsp : ∀ k, 0 ≤ c.sp k) (hnum : c.arrays.length ≤ c.ns.prod)
    {i i2 : Nat} (hi : i < c.arrays.length) (hi2 : i2 < c.arrays.length) (hne : i ≠ i2)
    (pos : List Nat) : ¬ (c.inRegion i pos = true ∧ c.inRegion i2 pos = true) := by
  rintro ⟨hr1, hr2⟩
  have hiprod : i < c.ns.prod := by omega
  have hi2prod : i2 < c.ns.prod := by omega
  have hcoords : unravel c.ns i ≠ unravel c.ns i2 := by
    intro hc
    exact hne (unravel_inj hpos hiprod hi2prod hc)
  have hdiff : ∃ k, k < c.ns.length ∧
      (unravel c.ns i).getD k 0 ≠ (unravel c.ns i2).getD k 0 := by
    by_contra hall
    push_neg at hall
    apply hcoords
    apply List.ext_getElem
    · rw [unravel_length, unravel_length]
    · intro k h1 h2
      have hk : k < c.ns.length := by
        rw [unravel_length] at h1
        exact h1
      have := hall k hk
      rwa [List.getD_eq_getElem?_getD, List.getElem?_eq_getElem h1,
        List.getD_eq_getElem?_getD, List.getElem?_eq_getElem h2] at this
  obtain ⟨k, hk, hkne⟩ := hdiff
  obtain ⟨_, hb1⟩ := (c.inRegion_iff i pos).mp hr1
  obtain ⟨_, hb2⟩ := (c.inRegion_iff i2 pos).mp hr2
  have hp1 := hb1 k hk
  have hp2 := hb2 k hk
  have hs1 := c.startOf_bounds hiprod k
  have hs2 := c.startOf_bounds hi2prod k
  have hj1 : (unravel c.ns i).getD k 0 < c.ns.getD k 0 := unravel_lt hpos hiprod k hk
  have hj2 : (unravel c.ns i2).getD k 0 < c.ns.getD k 0 := unravel_lt hpos hi2prod k hk
  rcases Nat.lt_or_ge ((unravel c.ns i).getD k 0) ((unravel c.ns i2).getD k 0) with hlt | hge
  · have := c.origin_add_len_le hsp k hlt (by omega)
    omega
  · have hlt2 : (unravel c.ns i2).getD k 0 < (unravel c.ns i).getD k 0 := by omega
    have := c.origin_add_len_le hsp k hlt2 (by omega)
    omega

theorem Asm.out_shape_getD {α : Type} (c : Asm α) {k : Nat} (hk : k < c.ns.length) :
    c.out.shape.getD k 0 = (c.origin k (c.ns.getD k 0)).toNat := by
  rw [Asm.out]
  exact getD_map_range _ _ hk

theorem Asm.out_shape_length {α : Type} (c : Asm α) : c.out.shape.length = c.ns.length := by
  rw [Asm.out]
  simp

/-- Containment: the element `ix` of array `i` lands at the aligned position
`startOf i + ix`, inside the output, and the output holds its value there. -/
theorem Asm.containment {α : Type} (c : Asm α) (hpos : ∀ d ∈ c.ns, 0 < d)
    (hsp : ∀ k, 0 ≤ c.sp k) (hnum : c.arrays.length ≤ c.ns.prod)
    (hd : ∀ a ∈ c.arrays, a.shape.length = c.ns.length)
    {i : Nat} (hi : i < c.arrays.length) {ix : List Nat}
    (hix : inShape (c.arrayAt i).shape ix = true) :
    c.inRegion i ((List.range c.ns.length).map fun k =>
      (c.startOf i k + (ix.getD k 0 : Int)).toNat) = true ∧
    c.rel i ((List.range c.ns.length).map fun k =>
      (c.startOf i k + (ix.getD k 0 : Int)).toNat) = ix ∧
    inShape c.out.shape ((List.range c.ns.length).map fun k =>
      (c.startOf i k + (ix.getD k 0 : Int)).toNat) = true ∧
    c.out.data ((List.range c.ns.length).map fun k =>
      (c.startOf i k + (ix.getD k 0 : Int)).toNat) = (c.arrayAt i).data ix := by
  have hiprod : i < c.ns.prod := by omega
  have hshape : (c.arrayAt i).shape.length = c.ns.length := by
    apply hd
    rw [Asm.arrayAt, List.get?_eq_getElem?, List.getElem?_eq_getElem hi]
    exact List.getElem_mem _
  obtain ⟨hixlen, hixbound⟩ := inShape_iff.mp hix
  have hstart_nonneg : ∀ k, 0 ≤ c.startOf i k := by
    intro k
    have := (c.startOf_bounds hiprod k).1
    have := c.origin_nonneg hsp k ((unravel c.ns i).getD k 0)
    omega
  have hposk : ∀ k, k < c.ns.length →
      (((List.range c.ns.length).map fun k =>
        (c.startOf i k + (ix.getD k 0 : Int)).toNat).getD k 0 : Int)
      = c.startOf i k + (ix.getD k 0 : Int) := by
    intro k hk
    rw [getD_map_range _ _ hk]
    rw [Int.toNat_of_nonneg (by
      have := hstart_nonneg k
      have : (0 : Int) ≤ (ix.getD k 0 : Int) := Int.natCast_nonneg _
      omega)]
  have hixlt : ∀ k, k < c.ns.length → (ix.getD k 0 : Int) < (c.headDim i k : Int) := by
    intro k hk
    rw [c.headDim_eq hi k]
    exact_mod_cast hixbound k (by omega)
  have hregion : c.inRegion i ((List.range c.ns.length).map fun k =>
      (c.startOf i k + (ix.getD k 0 : Int)).toNat) = true := by
    rw [Asm.inRegion_iff]
    constructor
    · simp
    · intro k hk
      rw [hposk k hk]
      have h1 : (0 : Int) ≤ (ix.getD k 0 : Int) := Int.natCast_nonneg _
      have h2 := hixlt k hk
      omega
  have hrel : c.rel i ((List.range c.ns.length).map fun k =>
      (c.startOf i k + (ix.getD k 0 : Int)).toNat) = ix := by
    rw [Asm.rel]
    have hstep : ((List.range c.ns.length).map fun k =>
        ((((List.range c.ns.length).map fun k2 =>
          (c.startOf i k2 + (ix.getD k2 0 : Int)).toNat).getD k 0 : Nat) : Int)
          - c.startOf i k |>.toNat)
        = (List.range c.ns.length).map fun k => ix.getD k 0 := by
      apply List.map_congr_left
      intro k hkmem
      rw [List.mem_range] at hkmem
      rw [hposk k hkmem]
      omega
    rw [hstep, map_getD_range _ (by omega)]
  have hinshape : inShape c.out.shape ((List.range c.ns.length).map fun k =>
      (c.startOf i k + (ix.getD k 0 : Int)).toNat) = true := by
    rw [inShape_iff]
    constructor
    · rw [c.out_shape_length]
      simp
    · intro k hk0
      have hk : k < c.ns.length := by
        rw [c.out_shape_length] at hk0
        exact hk0
      rw [c.out_shape_getD hk]
      have hcoordlt : (unravel c.ns i).getD k 0 < c.ns.getD k 0 :=
        unravel_lt hpos hiprod k hk
      have hext := c.origin_add_len_le hsp k hcoordlt (Nat.le_refl _)
      have hsb := c.startOf_bounds hiprod k
      have hrange : (((List.range c.ns.length).map fun k =>
          (c.startOf i k + (ix.getD k 0 : Int)).toNat).getD k 0 : Int)
          < c.origin k (c.ns.getD k 0) := by
        rw [hposk k hk]
        have := hixlt k hk
        omega
      have hnn := c.origin_nonneg hsp k (c.ns.getD k 0)
      omega
  refine ⟨hregion, hrel, hinshape, ?_⟩
  rw [Asm.out]
  simp only
  rw [c.foldl_write_of_unique _ (List.range c.arrays.length) _
    (List.mem_range.mpr hi) hregion ?huniq]
  · rw [hrel]
  case huniq =>
    intro i2 hi2 hne
    rw [List.mem_range] at hi2
    by_contra hc
    rw [Bool.not_eq_false] at hc
    exact c.regions_disjoint hpos hsp hnum hi2 hi hne _ ⟨hc, hregion⟩

/-- Positions covered by no array hold the background value. -/
theorem Asm.background_fill {α : Type} (c : Asm α) {pos : List Nat}
    (h : ∀ i, i < c.arrays.length → c.inRegion i pos = false) :
    c.out.data pos = c.background := by
  rw [Asm.out]
  simp only
  rw [c.foldl_write_of_none _ (List.range c.arrays.length) pos
    fun i hi => h i (List.mem_range.mp hi)]

/-- C1 amended: every successful call to `assemble_arrays` with nonnegative
per-axis spacing satisfies: each input array appears fully and unmodified at
the position dictated by its per-axis alignment code within its assigned
cell, the written regions of distinct input arrays do not intersect, and
every output element not covered by an input array equals the background
value. (With negative spacing a call can succeed while written regions
overlap; see the counterexample.) -/
theorem assemble_arrays_spec {α : Type} (arrays : List (NDArray α)) (shape : List Int)
    (background : α) (align : Nat → Nat → Align) (spacing : Nat → Int)
    (round_to_even : Nat → Bool) (out : NDArray α)
    (hok : assemble_arrays arrays shape background align spacing round_to_even
      = Except.ok out)
    (hsp : ∀ k, 0 ≤ spacing k) :
    ∃ ishape, fit_shape shape arrays.length = Except.ok ishape ∧
      (let c : Asm α := ⟨arrays, ishape.map Int.toNat, spacing, round_to_even,
        align, background⟩
       out = c.out ∧
       (∀ i, i < arrays.length → ∀ ix, inShape (c.arrayAt i).shape ix = true →
         c.inRegion i ((List.range c.ns.length).map fun k =>
           (c.startOf i k + (ix.getD k 0 : Int)).toNat) = true ∧
         inShape c.out.shape ((List.range c.ns.length).map fun k =>
           (c.startOf i k + (ix.getD k 0 : Int)).toNat) = true ∧
         c.out.data ((List.range c.ns.length).map fun k =>
           (c.startOf i k + (ix.getD k 0 : Int)).toNat) = (c.arrayAt i).data ix) ∧
       (∀ i, i < arrays.length → ∀ k, k < c.ns.length →
         c.origin k ((unravel c.ns i).getD k 0) ≤ c.startOf i k ∧
         c.startOf i k + (c.headDim i k : Int)
           ≤ c.origin k ((unravel c.ns i).getD k 0)
             + (c.cellLen k ((unravel c.ns i).getD k 0) : Int)) ∧
       (∀ i i2, i < arrays.length → i2 < arrays.length → i ≠ i2 →
         ∀ pos : List Nat, ¬ (c.inRegion i pos = true ∧ c.inRegion i2 pos = true)) ∧
       (∀ pos : List Nat, inShape c.out.shape pos = true →
         (∀ i, i < arrays.length → c.inRegion i pos = false) →
         c.out.data pos = background)) := by
  rw [assemble_arrays] at hok
  by_cases h0 : arrays.length = 0
  · rw [if_pos h0] at hok
    exact Except.noConfusion hok
  · rw [if_neg h0] at hok
    cases hfit : fit_shape shape arrays.length with
    | error e =>
      rw [hfit] at hok
      exact Except.noConfusion hok
    | ok ishape =>
      rw [hfit] at hok
      have hok2 : (if (arrays.all fun a => a.shape.length == ishape.length) = true then
          Except.ok (Asm.out ⟨arrays, ishape.map Int.toNat, spacing, round_to_even,
            align, background⟩)
        else
          (Except.error "Shapes of arrays do not all end in tail_dims" :
            Except String (NDArray α))) = Except.ok out := hok
      by_cases hranks : (arrays.all fun a => a.shape.length == ishape.length) = true
      · rw [if_pos hranks] at hok2
        have hout := (Except.ok.inj hok2).symm
        refine ⟨ishape, rfl, hout, ?_, ?_, ?_, ?_⟩
        · -- containment
          set c : Asm α := ⟨arrays, ishape.map Int.toNat, spacing, round_to_even,
            align, background⟩ with hc
          have hfacts := fit_shape_pos_prod hfit (by omega)
          have hpos : ∀ d ∈ c.ns, 0 < d := by
            intro d hd
            obtain ⟨e, he, rfl⟩ := List.mem_map.mp hd
            have := hfacts.1 e he
            omega
          have hnum : c.arrays.length ≤ c.ns.prod := by
            show arrays.length ≤ (ishape.map Int.toNat).prod
            have hcast : (((ishape.map Int.toNat).prod : Nat) : Int) = ishape.prod :=
              prod_map_toNat fun d hd => le_of_lt (hfacts.1 d hd)
            have h2 := hfacts.2
            omega
          have hd : ∀ a ∈ c.arrays, a.shape.length = c.ns.length := by
            intro a ha
            rw [List.all_eq_true] at hranks
            have := hranks a ha
            simp only [beq_iff_eq] at this
            rw [this]
            simp [hc]
          intro i hi ix hix
          have hcont := c.containment hpos hsp hnum hd hi hix
          exact ⟨hcont.1, hcont.2.2.1, hcont.2.2.2⟩
        · -- inside the assigned cell
          set c : Asm α := ⟨arrays, ishape.map Int.toNat, spacing, round_to_even,
            align, background⟩ with hc
          have hfacts := fit_shape_pos_prod hfit (by omega)
          have hnum : c.arrays.length ≤ c.ns.prod := by
            show arrays.length ≤ (ishape.map Int.toNat).prod
            have hcast : (((ishape.map Int.toNat).prod : Nat) : Int) = ishape.prod :=
              prod_map_toNat fun d hd => le_of_lt (hfacts.1 d hd)
            have h2 := hfacts.2
            omega
          intro i hi k hk
          exact c.startOf_bounds (lt_of_lt_of_le (show i < c.arrays.length from hi) hnum) k
        · -- no overlap
          set c : Asm α := ⟨arrays, ishape.map Int.toNat, spacing, round_to_even,
            align, background⟩ with hc
          have hfacts := fit_shape_pos_prod hfit (by omega)
          have hpos : ∀ d ∈ c.ns, 0 < d := by
            intro d hd
            obtain ⟨e, he, rfl⟩ := List.mem_map.mp hd
            have := hfacts.1 e he
            omega
          have hnum : c.arrays.length ≤ c.ns.prod := by
            show arrays.length ≤ (ishape.map Int.toNat).prod
            have hcast : (((ishape.map Int.toNat).prod : Nat) : Int) = ishape.prod :=
              prod_map_toNat fun d hd => le_of_lt (hfacts.1 d hd)
            have h2 := hfacts.2
            omega
          intro i i2 hi hi2 hne pos
          exact c.regions_disjoint hpos hsp hnum hi hi2 hne pos
        · -- background fill
          set c : Asm α := ⟨arrays, ishape.map Int.toNat, spacing, round_to_even,
            align, background⟩ with hc
          intro pos hposShape hnone
          exact c.background_fill hnone
      · rw [if_neg hranks] at hok2
        exact Except.noConfusion hok2

/-- A single 1-element array for the C1 witness. -/
def w1arrays : List (NDArray Int) := [⟨[1], fun _ => 5⟩]

/-- The output of assembling `w1arrays` into grid `(1,)`. -/
def w1out : NDArray Int :=
  Asm.out ⟨w1arrays, ([1] : List Int).map Int.toNat, fun _ => 0, fun _ => false,
    fun _ _ => Align.center, 0⟩

/-- C1 witness: the amended theorem applied to one `[5]` array in a `(1,)`
grid with zero spacing. -/
theorem assemble_arrays_spec_witness :
    (assemble_arrays w1arrays [1] 0 (fun _ _ => Align.center) (fun _ => 0) (fun _ => false)
        = Except.ok w1out ∧ (∀ k : Nat, (0 : Int) ≤ 0)) ∧
    (∃ ishape, fit_shape [1] w1arrays.length = Except.ok ishape ∧
      (let c : Asm Int := ⟨w1arrays, ishape.map Int.toNat, fun _ => 0, fun _ => false,
        fun _ _ => Align.center, 0⟩
       w1out = c.out ∧
       (∀ i, i < w1arrays.length → ∀ ix, inShape (c.arrayAt i).shape ix = true →
         c.inRegion i ((List.range c.ns.length).map fun k =>
           (c.startOf i k + (ix.getD k 0 : Int)).toNat) = true ∧
         inShape c.out.shape ((List.range c.ns.length).map fun k =>
           (c.startOf i k + (ix.getD k 0 : Int)).toNat) = true ∧
         c.out.data ((List.range c.ns.length).map fun k =>
           (c.startOf i k + (ix.getD k 0 : Int)).toNat) = (c.arrayAt i).data ix) ∧
       (∀ i, i < w1arrays.length → ∀ k, k < c.ns.length →
         c.origin k ((unravel c.ns i).getD k 0) ≤ c.startOf i k ∧
         c.startOf i k + (c.headDim i k : Int)
           ≤ c.origin k ((unravel c.ns i).getD k 0)
             + (c.cellLen k ((unravel c.ns i).getD k 0) : Int)) ∧
       (∀ i i2, i < w1arrays.length → i2 < w1arrays.length → i ≠ i2 →
         ∀ pos : List Nat, ¬ (c.inRegion i pos = true ∧ c.inRegion i2 pos = true)) ∧
       (∀ pos : List Nat, inShape c.out.shape pos = true →
         (∀ i, i < w1arrays.length → c.inRegion i pos = false) →
         c.out.data pos = 0))) :=
  ⟨⟨rfl, fun _ => le_refl 0⟩,
    assemble_arrays_spec w1arrays [1] 0 (fun _ _ => Align.center) (fun _ => 0)
      (fun _ => false) w1out rfl (fun _ => le_refl 0)⟩

/-- A successful `assemble_arrays` call stays successful when only the
background value changes (the control flow never consults it). -/
theorem assemble_arrays_ok_background {α : Type} {arrays : List (NDArray α)}
    {shape : List Int} {background : α} {align : Nat → Nat → Align}
    {spacing : Nat → Int} {round_to_even : Nat → Bool} {out : NDArray α}
    (hok : assemble_arrays arrays shape background align spacing round_to_even
      = Except.ok out)
    (background2 : α) :
    ∃ out2, assemble_arrays arrays shape background2 align spacing round_to_even
      = Except.ok out2 := by
  rw [assemble_arrays] at hok ⊢
  by_cases h0 : arrays.length = 0
  · rw [if_pos h0] at hok
    exact Except.noConfusion hok
  · rw [if_neg h0] at hok ⊢
    cases hfit : fit_shape shape arrays.length with
    | error e =>
      rw [hfit] at hok
      exact Except.noConfusion hok
    | ok ishape =>
      rw [hfit] at hok
      have hok2 : (if (arrays.all fun a => a.shape.length == ishape.length) = true then
          Except.ok (Asm.out ⟨arrays, ishape.map Int.toNat, spacing, round_to_even,
            align, background⟩)
        else
          (Except.error "Shapes of arrays do not all end in tail_dims" :
            Except String (NDArray α))) = Except.ok out := hok
      by_cases hranks : (arrays.all fun a => a.shape.length == ishape.length) = true
      · refine ⟨Asm.out ⟨arrays, ishape.map Int.toNat, spacing, round_to_even,
          align, background2⟩, ?_⟩
        show (if (arrays.all fun a => a.shape.length == ishape.length) = true then
            Except.ok (Asm.out ⟨arrays, ishape.map Int.toNat, spacing, round_to_even,
              align, background2⟩)
          else
            (Except.error "Shapes of arrays do not all end in tail_dims" :
              Except String (NDArray α)))
          = Except.ok (Asm.out ⟨arrays, ishape.map Int.toNat, spacing, round_to_even,
              align, background2⟩)
        rw [if_pos hranks]
      · rw [if_neg hranks] at hok2
        exact Except.noConfusion hok2

/-! ### Element type (dtype) handling of `assemble_arrays`

Source lines 1884-1885 and 1920-1922:
```
if any(array.dtype != arrays[0].dtype for array in arrays):
  raise ValueError(f'Arrays {arrays} have different types.')
...
output_array = np.full(output_shape, background, arrays[0].dtype)
```
Dtypes are modelled by an arbitrary type `δ` attached to each array; the
background may have any type `β`, and `np.full`'s conversion of the
background value to the target dtype is an arbitrary function
`castTo : δ → β → α` applied with target `arrays[0].dtype`. (The dtype
check is performed before the shape fitting here; the source performs it
just after, which changes only which error is reported, never success.) -/

def assemble_arrays_typed {δ β α : Type} [DecidableEq δ]
    (arrays : List (δ × NDArray α)) (shape : List Int) (background : β)
    (castTo : δ → β → α) (align : Nat → Nat → Align) (spacing : Nat → Int)
    (round_to_even : Nat → Bool) : Except String (δ × NDArray α) :=
  match arrays with
  | [] => Except.error "There must be at least one input array."
  | a0 :: _ =>
    if arrays.any fun a => ¬ (a.1 = a0.1) then
      Except.error "Arrays have different types."
    else
      (assemble_arrays (arrays.map Prod.snd) shape (castTo a0.1 background) align
        spacing round_to_even).map fun g => (a0.1, g)

/-- C10: on every successful call, the output element type equals the shared
element type of the inputs; the background is converted to that type by
`castTo d background`; and the background's own type and value never
influence the output element type: with any other background of any other
type the call still succeeds with the same output dtype `d`. -/
theorem assemble_arrays_typed_dtype {δ β α : Type} [DecidableEq δ]
    (arrays : List (δ × NDArray α)) (shape : List Int) (background : β)
    (castTo : δ → β → α) (align : Nat → Nat → Align) (spacing : Nat → Int)
    (round_to_even : Nat → Bool) (d : δ) (g : NDArray α)
    (hok : assemble_arrays_typed arrays shape background castTo align spacing round_to_even
      = Except.ok (d, g)) :
    (∀ a ∈ arrays, a.1 = d) ∧
    (assemble_arrays (arrays.map Prod.snd) shape (castTo d background) align spacing
        round_to_even = Except.ok g) ∧
    (∀ {β2 : Type} (background2 : β2) (castTo2 : δ → β2 → α),
      ∃ g2, assemble_arrays_typed arrays shape background2 castTo2 align spacing
        round_to_even = Except.ok (d, g2)) := by
  match arrays, hok with
  | a0 :: rest, hok =>
    rw [assemble_arrays_typed] at hok
    by_cases hany : ((a0 :: rest).any fun a => ¬ (a.1 = a0.1)) = true
    · rw [if_pos hany] at hok
      exact Except.noConfusion hok
    · rw [if_neg hany] at hok
      have halleq : ∀ a ∈ a0 :: rest, a.1 = a0.1 := by
        intro a ha
        by_contra hc
        apply hany
        rw [List.any_eq_true]
        exact ⟨a, ha, by simpa using hc⟩
      cases hgen : assemble_arrays ((a0 :: rest).map Prod.snd) shape
          (castTo a0.1 background) align spacing round_to_even with
      | error e =>
        rw [hgen] at hok
        exact Except.noConfusion hok
      | ok g0 =>
        rw [hgen] at hok
        simp only [Except.map] at hok
        have hpair : (a0.1, g0) = (d, g) := Except.ok.inj hok
        have hd : a0.1 = d := (Prod.mk.injEq _ _ _ _).mp hpair |>.1
        have hg : g0 = g := (Prod.mk.injEq _ _ _ _).mp hpair |>.2
        subst hd
        subst hg
        refine ⟨halleq, hgen, ?_⟩
        intro β2 background2 castTo2
        obtain ⟨out2, hout2⟩ := assemble_arrays_ok_background hgen (castTo2 a0.1 background2)
        refine ⟨out2, ?_⟩
        rw [assemble_arrays_typed, if_neg hany, hout2]
        rfl

/-- C10 witness: one array of dtype `0` with a background of a different
type (`Bool`); the output dtype is `0`. -/
theorem assemble_arrays_typed_dtype_witness :
    (assemble_arrays_typed [((0 : Nat), (⟨[1], fun _ => (7 : Int)⟩ : NDArray Int))] [1]
        true (fun _ b => if b then 1 else 0) (fun _ _ => Align.center) (fun _ => 0)
        (fun _ => false)
      = Except.ok ((0 : Nat), Asm.out ⟨[⟨[1], fun _ => (7 : Int)⟩],
          ([1] : List Int).map Int.toNat, fun _ => 0, fun _ => false,
          fun _ _ => Align.center, if true then 1 else 0⟩)) ∧
    ((∀ a ∈ [((0 : Nat), (⟨[1], fun _ => (7 : Int)⟩ : NDArray Int))], a.1 = 0) ∧
      (assemble_arrays ([((0 : Nat), (⟨[1], fun _ => (7 : Int)⟩ : NDArray Int))].map Prod.snd)
          [1] ((fun (_ : Nat) (b : Bool) => if b then (1 : Int) else 0) 0 true)
          (fun _ _ => Align.center) (fun _ => 0) (fun _ => false)
        = Except.ok (Asm.out ⟨[⟨[1], fun _ => (7 : Int)⟩],
            ([1] : List Int).map Int.toNat, fun _ => 0, fun _ => false,
            fun _ _ => Align.center, if true then 1 else 0⟩)) ∧
      (∀ {β2 : Type} (background2 : β2) (castTo2 : Nat → β2 → Int),
        ∃ g2, assemble_arrays_typed [((0 : Nat), (⟨[1], fun _ => (7 : Int)⟩ : NDArray Int))]
            [1] background2 castTo2 (fun _ _ => Align.center) (fun _ => 0) (fun _ => false)
          = Except.ok ((0 : Nat), g2))) :=
  ⟨rfl, assemble_arrays_typed_dtype _ [1] true (fun _ b => if b then 1 else 0)
    (fun _ _ => Align.center) (fun _ => 0) (fun _ => false) 0 _ rfl⟩
